import Mathlib

/-!
Verification development for the Discord bot in `bot.py`.

The bot's pure logic is modelled as Lean functions over `List Char`
(message text) and explicit state (the history table as a list of rows).
External collaborators (the Discord client, the OpenAI moderation and
completion endpoints, the grammar engine, the platform moderation calls)
are modelled as oracle functions passed in explicitly; a failing external
call is an oracle returning `none`.

Character-level conventions: Python's `re` character classes `\s`, `\w` and
`str.isdigit`, `str.lower`, `str.capitalize` are modelled at the ASCII
level (the level at which the program's own patterns and word lists
operate): whitespace is space, tab, newline, carriage return, vertical tab
and form feed; word characters are ASCII letters, digits and underscore;
case mapping is ASCII case mapping (`Char.toLower` / `Char.toUpper`).
-/

/-- Whitespace characters, the ASCII fragment of Python regex `\s`:
space (32), tab (9), newline (10), carriage return (13), vertical tab (11),
form feed (12). -/
def isWs (c : Char) : Bool :=
  c.toNat == 32 || c.toNat == 9 || c.toNat == 10 || c.toNat == 13 || c.toNat == 11 || c.toNat == 12

/-- The punctuation class `[?.!,]` of the second fallback substitution in
`run_language_tool_check` (bot.py line 118): `?` (63), `.` (46), `!` (33), `,` (44). -/
def isPunc (c : Char) : Bool :=
  c.toNat == 63 || c.toNat == 46 || c.toNat == 33 || c.toNat == 44

/-- The sentence-terminator class `[.?!]` of the capitalization split in
`run_language_tool_check` (bot.py line 120): `.` (46), `?` (63), `!` (33). -/
def isTerm (c : Char) : Bool :=
  c.toNat == 46 || c.toNat == 63 || c.toNat == 33

/-- Word characters, the ASCII fragment of Python regex `\w`:
letters, digits and underscore (95). -/
def isWordChar (c : Char) : Bool :=
  (65 ≤ c.toNat && c.toNat ≤ 90) || (97 ≤ c.toNat && c.toNat ≤ 122)
    || (48 ≤ c.toNat && c.toNat ≤ 57) || c.toNat == 95

/-- ASCII digit characters, modelling `str.isdigit` and regex `\d`. -/
def isDigitChar (c : Char) : Bool :=
  48 ≤ c.toNat && c.toNat ≤ 57

/-! ## Text repair fallback (bot.py lines 102-122, `run_language_tool_check`)

The fallback branch of `run_language_tool_check` is:
```
s = re.sub(r"\s+", " ", text).strip()
s = re.sub(r"\s+([?.!,])", r"\1", s)
parts = re.split("([.?!]\s+)", s)
s = "".join(p.capitalize() for p in parts)
```
Each regex pass is translated by its effect on the character list:
`re.sub(r"\s+", " ", text)` replaces every maximal whitespace run by one
space; `.strip()` removes leading and trailing whitespace;
`re.sub(r"\s+([?.!,])", r"\1", s)` deletes every maximal whitespace run
that is immediately followed by one of `? . ! ,` (keeping the punctuation
mark); `re.split` with a captured group returns the parts and the
separators (a sentence terminator plus the following maximal nonempty
whitespace run) alternating, and `str.capitalize` uppercases the first
character of a string and lowercases the rest. -/

/-- Model of `re.sub(r"\s+", " ", text)`: each maximal whitespace run
becomes a single space.  A whitespace character followed by more whitespace
is dropped; the last whitespace character of a run becomes a space. -/
def collapseWsRe : List Char → List Char
  | [] => []
  | [c] => if isWs c then [' '] else [c]
  | c :: d :: t =>
    if isWs c then
      if isWs d then collapseWsRe (d :: t) else ' ' :: collapseWsRe (d :: t)
    else c :: collapseWsRe (d :: t)

/-- Model of Python `str.strip()`: remove leading and trailing whitespace. -/
def stripWs (l : List Char) : List Char :=
  ((l.dropWhile isWs).reverse.dropWhile isWs).reverse

/-- Model of `re.sub(r"\s+([?.!,])", r"\1", s)`: a whitespace character is
deleted exactly when the first non-whitespace character after it (with only
whitespace in between) is one of `? . ! ,`; all other characters are kept.
This deletes every maximal whitespace run immediately followed by a
punctuation mark, keeping the mark, exactly as the regex does. -/
def rmWsPunct : List Char → List Char
  | [] => []
  | c :: cs =>
    if isWs c then
      match cs.dropWhile isWs with
      | p :: _ => if isPunc p then rmWsPunct cs else c :: rmWsPunct cs
      | [] => c :: rmWsPunct cs
    else c :: rmWsPunct cs

/-- Prepend a character to the first part of a decomposition. -/
def consHead (c : Char) : List (List Char) → List (List Char)
  | [] => [[c]]
  | p :: rest => (c :: p) :: rest

/-- Model of `re.split("([.?!]\s+)", s)` with the separator group captured:
the result alternates text parts and separators, beginning and ending with
a (possibly empty) part; a separator is a sentence terminator followed by a
maximal nonempty whitespace run.  Built by a right fold: prepending a
terminator to a decomposition whose first part starts with whitespace moves
that whitespace run into a new separator. -/
def splitTerm : List Char → List (List Char)
  | [] => [[]]
  | c :: cs =>
    match splitTerm cs with
    | (d :: ds) :: rest =>
      if isTerm c && isWs d then
        [] :: (c :: d :: ds.takeWhile isWs) :: ds.dropWhile isWs :: rest
      else (c :: d :: ds) :: rest
    | other => consHead c other

/-- Model of Python `str.capitalize()`: first character uppercased, all
remaining characters lowercased (ASCII case mapping). -/
def capitalizePy : List Char → List Char
  | [] => []
  | c :: cs => c.toUpper :: cs.map Char.toLower

/-- The complete fallback transform of `run_language_tool_check`
(bot.py lines 116-122). -/
def fallbackRepair (text : List Char) : List Char :=
  ((splitTerm (rmWsPunct (stripWs (collapseWsRe text)))).map capitalizePy).flatten

/-- Model of `run_language_tool_check` (bot.py lines 102-122).  The grammar
engine is an oracle: `none` when `language_tool_python` is not installed;
`some f` when it is, where `f text = none` models the engine raising an
exception and `f text = some out` models a successful engine pass.  The
`is_article` flag is accepted and never used, exactly as in the source. -/
def run_language_tool_check (engine : Option (List Char → Option (List Char)))
    (_is_article : Bool) (text : List Char) : List Char :=
  match engine with
  | some f =>
    match f text with
    | some out => out
    | none => fallbackRepair text
  | none => fallbackRepair text


/-! ## Content safety gate (bot.py lines 36-62, `contains_profanity` and
`is_content_safe`)

`contains_profanity` lowercases the text and searches each denylist word
with the regex `\b<word>\b`.  Since every denylist word consists solely of
word characters, `\b` before the word means the preceding character (if
any) is not a word character, and `\b` after it means the following
character (if any) is not a word character.

`is_content_safe` returns `False` immediately on a denylist hit; otherwise,
when an OpenAI key is configured it calls the moderation endpoint, returns
`False` when the response is flagged, and treats a failing call as safe
(fail open).  The moderation oracle returns `some flagged` for a
successful call and `none` for a raised exception. -/

/-- The configured denylist `PROFANITY` of bot.py lines 36-38. -/
def PROFANITY : List (List Char) :=
  ["badword1".data, "badword2".data]

/-- Whole-word occurrence of `w` at index `i` of `s`: the slice of length
`w.length` starting at `i` equals `w`, and both neighbouring positions, when
they exist, hold non-word characters (out-of-range lookups yield the NUL
character, which is not a word character, giving the end-of-string cases). -/
def wholeWordAt (w s : List Char) (i : Nat) : Bool :=
  decide ((s.drop i).take w.length = w)
    && (i == 0 || !isWordChar (s.getD (i - 1) (Char.ofNat 0)))
    && !isWordChar (s.getD (i + w.length) (Char.ofNat 0))

/-- Model of `re.search(rf"\b{re.escape(w)}\b", s)` for a word `w` made of
word characters: some position of `s` carries a whole-word occurrence. -/
def wholeWordSearch (w s : List Char) : Bool :=
  (List.range (s.length + 1)).any (fun i => wholeWordAt w s i)

/-- Model of `contains_profanity` (bot.py lines 40-46). -/
def contains_profanity (text : List Char) : Bool :=
  PROFANITY.any (fun w => wholeWordSearch w (text.map Char.toLower))

/-- Result of the safety gate: the verdict and whether the external
moderation endpoint was called. -/
structure SafetyResult where
  safe : Bool
  externalCalled : Bool
deriving DecidableEq, Repr

/-- Model of `is_content_safe` (bot.py lines 49-62).  `cfg` is the
`OPENAI_API_KEY and openai` guard; `mod` is the moderation oracle
(`some true` = flagged, `some false` = not flagged, `none` = the call
raised and the exception was swallowed). -/
def is_content_safe (cfg : Bool) (mod : List Char → Option Bool) (text : List Char) :
    SafetyResult :=
  if contains_profanity text then ⟨false, false⟩
  else if cfg then
    match mod text with
    | some true => ⟨false, true⟩
    | some false => ⟨true, true⟩
    | none => ⟨true, true⟩
  else ⟨true, false⟩


/-! ## History store (bot.py lines 72-100)

The sqlite table `history (channel_id, role, content, created_at)` is
modelled as a list of rows in insertion order; `created_at` is represented
by the position in the list (`INSERT` appends, and `ORDER BY created_at`
coincides with insertion order).  `load_history_for_channel` selects the
rows of one channel, most recent first, limited to `limit`, then reverses
to oldest-first. -/

/-- One row of the `history` table. -/
structure HistoryEntry where
  channel_id : Nat
  role : List Char
  content : List Char
deriving DecidableEq, Repr

/-- Model of `save_message_to_history` (bot.py lines 86-91): append one row. -/
def save_message_to_history (hist : List HistoryEntry) (channel_id : Nat)
    (role content : List Char) : List HistoryEntry :=
  hist ++ [⟨channel_id, role, content⟩]

/-- Model of `load_history_for_channel` (bot.py lines 93-100):
`SELECT role, content ... WHERE channel_id = ? ORDER BY created_at DESC
LIMIT ?`, then reversed to oldest-first. -/
def load_history_for_channel (hist : List HistoryEntry) (channel_id : Nat)
    (limit : Nat) : List (List Char × List Char) :=
  ((((hist.filter (fun e => e.channel_id == channel_id)).reverse.take limit).reverse).map
    (fun e => (e.role, e.content)))

/-! ## Chat turn handler (bot.py lines 327-367, `on_message`)

The `on_message` handler first lets command processing run, ignores bot
authors, and treats a message as chatbot input only when it is a reply
whose resolved referenced message was authored by the bot itself.  The
OpenAI completion call and the moderation call are both guarded by the
same `OPENAI_API_KEY and openai` configuration flag. -/

/-- One element of the OpenAI `messages` list. -/
structure ChatMsg where
  role : List Char
  content : List Char
deriving DecidableEq, Repr

/-- The oracle environment of a chat turn: the `OPENAI_API_KEY and openai`
flag, the moderation oracle, and the chat-completion oracle (`none` models
`openai.ChatCompletion.create` raising; `some r` a successful response
whose extracted content is `r`). -/
structure BotEnv where
  openaiConfigured : Bool
  moderation : List Char → Option Bool
  completion : List ChatMsg → Option (List Char)

/-- The fields of an inbound Discord message that `on_message` inspects:
`replyRefIsBotMessage` is true when `message.reference` is present, its
`resolved` field is a `Message`, and that message's author is the bot. -/
structure InboundMessage where
  channel_id : Nat
  content : List Char
  authorIsBot : Bool
  replyRefIsBotMessage : Bool
deriving DecidableEq, Repr

/-- Observable outcome of one `on_message` invocation: the final history
table, the reply sent with `message.reply` (if any), and the messages sent
with `channel.send` (the refusal path). -/
structure ChatOutcome where
  hist : List HistoryEntry
  reply : Option (List Char)
  channelSends : List (List Char)
deriving DecidableEq, Repr

/-- Refusal sent when the inbound text fails the safety gate (line 341). -/
def REFUSAL_INPUT : List Char := "Sorry \u2014 I can\x27t respond to that content.".data

/-- Apology used when the completion call raises (line 358). -/
def APOLOGY : List Char :=
  "Sorry \u2014 I\x27m having trouble accessing the AI service right now. Please try again later.".data

/-- Replacement used when the generated reply fails the safety gate (line 364). -/
def REFUSAL_OUTPUT : List Char := "Sorry \u2014 I can\x27t share that content.".data

/-- The fixed system prompt (line 347). -/
def SYSTEM_PROMPT : List Char :=
  "You are a friendly, helpful assistant. Always be polite and avoid profanity.".data

/-- The echo-style fallback reply used when no completion backend is
configured (line 361). -/
def ECHO_REPLY (user_text : List Char) : List Char :=
  "You said: ".data ++ user_text
    ++ "\n\n(You can enable smarter replies by adding OPENAI_API_KEY to your .env.)".data

/-- The prompt list built at lines 351-354: the system prompt, then the
loaded history (which already contains the just-saved user row), then the
new user turn. -/
def chatPrompt (hist : List HistoryEntry) (channel_id : Nat) (user_text : List Char) :
    List ChatMsg :=
  let hist1 := save_message_to_history hist channel_id "user".data user_text
  let history := load_history_for_channel hist1 channel_id 10
  ⟨"system".data, SYSTEM_PROMPT⟩ ::
    (history.map (fun rc => ⟨rc.1, rc.2⟩) ++ [⟨"user".data, user_text⟩])

/-- Model of the `on_message` handler (bot.py lines 327-367).  Command
processing (`bot.process_commands`) is dispatched separately by the client
library and does not touch the history, so it is not part of this model. -/
def on_message (env : BotEnv) (hist : List HistoryEntry) (msg : InboundMessage) :
    ChatOutcome :=
  if msg.authorIsBot then ⟨hist, none, []⟩
  else if msg.replyRefIsBotMessage then
    let user_text := msg.content
    if !(is_content_safe env.openaiConfigured env.moderation user_text).safe then
      ⟨hist, none, [REFUSAL_INPUT]⟩
    else
      let hist1 := save_message_to_history hist msg.channel_id "user".data user_text
      let reply0 : List Char :=
        if env.openaiConfigured then
          match env.completion (chatPrompt hist msg.channel_id user_text) with
          | some r => stripWs r
          | none => APOLOGY
        else ECHO_REPLY user_text
      let reply1 :=
        if !(is_content_safe env.openaiConfigured env.moderation reply0).safe then
          REFUSAL_OUTPUT
        else reply0
      let hist2 := save_message_to_history hist1 msg.channel_id "assistant".data reply1
      ⟨hist2, some reply1, []⟩
  else ⟨hist, none, []⟩

/-! ## Moderation commands (bot.py lines 268-324)

`cmd_kick`, `cmd_ban` and `cmd_timeout` check the invoker's guild
permission (with the `BOT_OWNER_ID` bypass), reply ephemerally on
rejection, otherwise send a stylized confirmation, perform the platform
action inside `try`, and report success or the caught failure on the
channel.  The platform call is an oracle: `none` for success, `some e` for
a raised exception rendered as `e`. -/

/-- The platform action attempted by a moderation command.
`timeoutSet m` is `member.timeout(until)` for `m` minutes;
`timeoutRemove` is `member.timeout(None)` (null expiry). -/
inductive PlatformAction where
  | kick
  | ban
  | timeoutSet (minutes : Int)
  | timeoutRemove
deriving DecidableEq, Repr

/-- Observable outcome of a moderation command: the interaction responses
(text paired with the ephemeral flag), the plain channel messages, and the
platform action attempted (if any). -/
structure ModOutcome where
  responses : List (String × Bool)
  channelSends : List String
  action : Option PlatformAction
deriving DecidableEq, Repr

/-- Model of `make_chatgpt_confirmation` (bot.py lines 268-270). -/
def make_chatgpt_confirmation (action target : String) (reason : Option String) : String :=
  "Sure! I\u2019ll " ++ action ++ " " ++ target ++ " immediately for **"
    ++ reason.getD "no reason provided" ++ "**."

/-- Model of `cmd_kick` (bot.py lines 272-286).  `hasKickPerm` is
`interaction.user.guild_permissions.kick_members`; `platformErr` is the
kick-call oracle (`none` = success, `some e` = exception text `e`). -/
def cmd_kick (ownerId invokerId : Nat) (hasKickPerm : Bool)
    (memberName memberMention : String) (reason : Option String)
    (platformErr : Option String) : ModOutcome :=
  if !hasKickPerm && invokerId != ownerId then
    ⟨[("You don\x27t have permission to kick members.", true)], [], none⟩
  else
    let confirm := make_chatgpt_confirmation "kick" memberName reason
    match platformErr with
    | none =>
      ⟨[(confirm, false)],
        [memberMention ++ " has been kicked. Reason: " ++ reason.getD "No reason provided."],
        some .kick⟩
    | some e =>
      ⟨[(confirm, false)], ["Failed to kick " ++ memberName ++ ": " ++ e], some .kick⟩

/-- Model of `cmd_ban` (bot.py lines 288-301). -/
def cmd_ban (ownerId invokerId : Nat) (hasBanPerm : Bool)
    (memberName memberMention : String) (reason : Option String)
    (platformErr : Option String) : ModOutcome :=
  if !hasBanPerm && invokerId != ownerId then
    ⟨[("You don\x27t have permission to ban members.", true)], [], none⟩
  else
    let confirm := make_chatgpt_confirmation "ban" memberName reason
    match platformErr with
    | none =>
      ⟨[(confirm, false)],
        [memberMention ++ " has been banned. Reason: " ++ reason.getD "No reason provided."],
        some .ban⟩
    | some e =>
      ⟨[(confirm, false)], ["Failed to ban " ++ memberName ++ ": " ++ e], some .ban⟩

/-- Model of `cmd_timeout` (bot.py lines 303-324).  `minutes` is the raw
integer argument; `hasModPerm` is `guild_permissions.moderate_members`. -/
def cmd_timeout (ownerId invokerId : Nat) (hasModPerm : Bool)
    (memberName memberMention : String) (minutes : Int) (reason : Option String)
    (platformErr : Option String) : ModOutcome :=
  if !hasModPerm && invokerId != ownerId then
    ⟨[("You don\x27t have permission to timeout members.", true)], [], none⟩
  else if minutes < 0 || minutes > 40320 then
    ⟨[("Minutes must be between 0 and 40320.", true)], [], none⟩
  else
    let confirm :=
      make_chatgpt_confirmation ("timeout for " ++ toString minutes ++ " minutes")
        memberName reason
    if minutes == 0 then
      match platformErr with
      | none =>
        ⟨[(confirm, false)],
          [memberMention ++ " timeout removed. Reason: " ++ reason.getD "No reason provided."],
          some .timeoutRemove⟩
      | some e =>
        ⟨[(confirm, false)], ["Failed to timeout " ++ memberName ++ ": " ++ e],
          some .timeoutRemove⟩
    else
      match platformErr with
      | none =>
        ⟨[(confirm, false)],
          [memberMention ++ " has been timed out for " ++ toString minutes
            ++ " minutes. Reason: " ++ reason.getD "No reason provided."],
          some (.timeoutSet minutes)⟩
      | some e =>
        ⟨[(confirm, false)], ["Failed to timeout " ++ memberName ++ ": " ++ e],
          some (.timeoutSet minutes)⟩

/-! ## Identifier resolver (bot.py lines 125-163, `fetch_message_from_identifier`)

The resolver, given an optional identifier string:
1. computes (but never uses) a first `$`-anchored link regex match — dead
   code at lines 129-133 with no observable effect, so it is not modelled;
2. if the identifier is all digits (`str.isdigit`), tries
   `interaction.channel.fetch_message(int(identifier))`, returning on
   success and swallowing a failure;
3. otherwise searches for the pattern `channels/(\d+)/(\d+)/(\d+)`,
   resolves the channel (cached, then live) and fetches the message inside
   it; any exception in this region is swallowed;
4. finally scans the last 10 messages of the channel and returns the first
   one whose author is not a bot, or `None`.

Message handles and fetch results are oracles; the trace of attempted
platform lookups is recorded so that precedence can be stated. -/

/-- A fetched Discord message, as far as the resolver inspects it. -/
structure FetchedMsg where
  id : Nat
  authorIsBot : Bool
deriving DecidableEq, Repr

/-- One attempted platform lookup of the resolver. -/
inductive ResolveStep where
  | fetchCurrent (msgId : Nat)
  | fetchLink (channelId msgId : Nat)
  | historyScan
deriving DecidableEq, Repr

/-- Oracles available to the resolver: fetching a message by id in the
current channel, resolving a channel id (`get_channel` or
`fetch_channel`, combined; `none` = both fail), fetching a message inside
a resolved channel, and the recent-history scan of the current channel. -/
structure ResolveEnv where
  fetchCurrent : Nat → Option FetchedMsg
  resolveChannel : Nat → Option Unit
  fetchIn : Nat → Nat → Option FetchedMsg
  recent : List FetchedMsg

/-- Value of a digit string, as `int(identifier)` computes it. -/
def digitsToNat (s : List Char) : Nat :=
  s.foldl (fun acc c => acc * 10 + (c.toNat - 48)) 0

/-- Python `identifier.isdigit()` (ASCII model): nonempty and all digits. -/
def isDigitStr (s : List Char) : Bool :=
  !s.isEmpty && s.all isDigitChar

/-- Greedy parse of a nonempty digit run: its value and the remainder. -/
def parseDigits (s : List Char) : Option (Nat × List Char) :=
  if (s.takeWhile isDigitChar).isEmpty then none
  else some (digitsToNat (s.takeWhile isDigitChar), s.dropWhile isDigitChar)

/-- Match of `channels/(\d+)/(\d+)/(\d+)` anchored at the start of `s`. -/
def parseLinkAt (s : List Char) : Option (Nat × Nat × Nat) :=
  if s.take 9 = "channels/".data then
    match parseDigits (s.drop 9) with
    | some (g, r1) =>
      match r1 with
      | '/' :: r2 =>
        match parseDigits r2 with
        | some (ch, r3) =>
          match r3 with
          | '/' :: r4 =>
            match parseDigits r4 with
            | some (mid, _) => some (g, ch, mid)
            | none => none
          | _ => none
        | none => none
      | _ => none
    | none => none
  else none

/-- Model of `re.search(r"channels/(\d+)/(\d+)/(\d+)", s)`: the leftmost
position at which the pattern matches, with greedy digit runs. -/
def findLinkMatch : List Char → Option (Nat × Nat × Nat)
  | [] => none
  | c :: cs =>
    match parseLinkAt (c :: cs) with
    | some r => some r
    | none => findLinkMatch cs

/-- The history-scan fallback at bot.py lines 156-163: first non-bot
message among the recent ones, `none` when there is none (a raised
exception during the scan behaves like an empty scan). -/
def historyFallback (env : ResolveEnv) (steps : List ResolveStep) :
    Option FetchedMsg × List ResolveStep :=
  (env.recent.find? (fun m => !m.authorIsBot), steps ++ [.historyScan])

/-- Model of `fetch_message_from_identifier` (bot.py lines 125-163),
returning the resolved message together with the trace of attempted
platform lookups in order. -/
def fetch_message_from_identifier (env : ResolveEnv) (identifier : Option (List Char)) :
    Option FetchedMsg × List ResolveStep :=
  match identifier with
  | none => historyFallback env []
  | some s =>
    if isDigitStr s then
      match env.fetchCurrent (digitsToNat s) with
      | some m => (some m, [.fetchCurrent (digitsToNat s)])
      | none =>
        match findLinkMatch s with
        | some (_, ch, mid) =>
          match env.resolveChannel ch with
          | some _ =>
            match env.fetchIn ch mid with
            | some m => (some m, [.fetchCurrent (digitsToNat s), .fetchLink ch mid])
            | none => historyFallback env [.fetchCurrent (digitsToNat s), .fetchLink ch mid]
          | none => historyFallback env [.fetchCurrent (digitsToNat s)]
        | none => historyFallback env [.fetchCurrent (digitsToNat s)]
    else
      match findLinkMatch s with
      | some (_, ch, mid) =>
        match env.resolveChannel ch with
        | some _ =>
          match env.fetchIn ch mid with
          | some m => (some m, [.fetchLink ch mid])
          | none => historyFallback env [.fetchLink ch mid]
        | none => historyFallback env []
      | none => historyFallback env []

/-! ## Specification-side definitions

These definitions follow the wording of the specification (not the
source); they exist to be compared with the source-derived definitions
above. -/

/-- Claim C3's hypothesis, written from the spec's words: `text` contains
`w` as a case-insensitive whole word, i.e. some slice of `text` lowercases
to `w` and the characters adjacent to the slice (when present) are not word
characters. -/
def SpecWholeWordOccurrence (w text : List Char) : Prop :=
  ∃ pre mid post, text = pre ++ mid ++ post ∧ mid.map Char.toLower = w ∧
    (∀ a, pre.getLast? = some a → isWordChar a = false) ∧
    (∀ b, post.head? = some b → isWordChar b = false)

/-- Removal of a single space immediately before a punctuation mark, as the
spec describes the second fallback step ("remove space immediately before
punctuation marks"). -/
def specRmSpaceBeforePunct : List Char → List Char
  | [] => []
  | [c] => [c]
  | a :: b :: t =>
    if isWs a && isPunc b then specRmSpaceBeforePunct (b :: t)
    else a :: specRmSpaceBeforePunct (b :: t)

/-- Capitalization exactly as claim C2 words it: uppercase the first
character following each sentence-terminator-plus-whitespace boundary and
leave every other character unchanged. -/
def specCapBoundary : List Char → List Char
  | [] => []
  | [a] => [a]
  | a :: b :: t =>
    if isTerm a && isWs b then
      a :: b ::
        (match t with
         | [] => []
         | c :: t2 => c.toUpper :: specCapBoundary t2)
    else a :: specCapBoundary (b :: t)

/-- The transform that claim C2 asserts the fallback to be: collapse
whitespace runs to one space, remove a space immediately before `? . ! ,`,
uppercase the first letter after each terminator-plus-whitespace boundary,
and change nothing else (in particular: no stripping, no lowercasing, no
capitalization of the start of the text). -/
def specClaimTransform (text : List Char) : List Char :=
  specCapBoundary (specRmSpaceBeforePunct (collapseWsRe text))

/-- The amended description of the fallback: collapse whitespace runs to
one space, strip leading and trailing whitespace, remove a space
immediately before `? . ! ,`, then split into segments at every
sentence-terminator-plus-whitespace boundary and recapitalize every
segment, including the first: its first character is uppercased and all its
remaining characters are lowercased. -/
def amendedFallbackTransform (text : List Char) : List Char :=
  ((splitTerm (specRmSpaceBeforePunct (stripWs (collapseWsRe text)))).map capitalizePy).flatten

/-! ## Predicates used by the idempotence claim -/

/-- No two adjacent characters satisfy `bad`. -/
def pairsOK (bad : Char → Char → Bool) : List Char → Bool
  | [] => true
  | [_] => true
  | a :: b :: t => !bad a b && pairsOK bad (b :: t)

/-- The text has no two consecutive space characters. -/
def noDoubleSpace (l : List Char) : Bool :=
  pairsOK (fun a b => a == ' ' && b == ' ') l

/-- The text has no space immediately before a punctuation mark. -/
def noSpaceBeforePunct (l : List Char) : Bool :=
  pairsOK (fun a b => a == ' ' && isPunc b) l

/-! ## Internal invariants of the fallback pipeline -/

/-- Every whitespace character of the list is a plain space. -/
def wsOnlySpace (l : List Char) : Bool :=
  l.all (fun c => !isWs c || c == ' ')

/-- No two adjacent whitespace characters. -/
def noAdjWs (l : List Char) : Bool :=
  pairsOK (fun a b => isWs a && isWs b) l

/-- No whitespace character immediately before a punctuation mark. -/
def noWsPunc (l : List Char) : Bool :=
  pairsOK (fun a b => isWs a && isPunc b) l

/-- No sentence terminator immediately followed by whitespace (such a pair
would open a separator of the capitalization split). -/
def noTrig (l : List Char) : Bool :=
  pairsOK (fun a b => isTerm a && isWs b) l

/-- The list is empty or starts with a non-whitespace character. -/
def headNonWs : List Char → Bool
  | [] => true
  | c :: _ => !isWs c

/-- The list is empty or ends with a non-whitespace character. -/
def lastNonWs (l : List Char) : Bool :=
  headNonWs l.reverse

/-- Separator shape of the capitalization split: a sentence terminator
followed by a nonempty whitespace run. -/
def isSepB : List Char → Bool
  | t :: w :: rest => isTerm t && isWs w && rest.all isWs
  | _ => false

/-- Well-formed tail of a `splitTerm` decomposition: alternating
separator/part pairs, each part free of terminator-whitespace pairs and not
starting with whitespace. -/
def validTail : List (List Char) → Bool
  | [] => true
  | [_] => false
  | sep :: part :: rest => isSepB sep && noTrig part && headNonWs part && validTail rest

/-- Characters equal up to one application of ASCII case mapping. -/
def capEqC (a b : Char) : Prop :=
  b = a ∨ b = a.toUpper ∨ b = a.toLower

/-! ## Concrete instances used by the witnesses -/

/-- Environment without a completion backend whose oracles are never
consulted. -/
def envPlain : BotEnv :=
  ⟨false, fun _ => none, fun _ => none⟩

/-- Environment with a configured backend whose completion call raises and
whose moderation endpoint always raises (fail-open). -/
def envBackendDown : BotEnv :=
  ⟨true, fun _ => none, fun _ => none⟩

/-- Adversarial environment for the C4 counterexample: the backend is
configured, the completion call raises, and the moderation endpoint flags
exactly the apology string. -/
def envFlagApology : BotEnv :=
  ⟨true, fun t => some (decide (t = APOLOGY)), fun _ => none⟩

/-- A plain user reply to the bot, in channel 1. -/
def msgHi : InboundMessage :=
  ⟨1, "hi there".data, false, true⟩

/-- Concrete history table: three rows of channel 1 around one of channel 2. -/
def histW : List HistoryEntry :=
  [⟨1, "user".data, "a".data⟩, ⟨1, "assistant".data, "b".data⟩,
   ⟨2, "user".data, "x".data⟩, ⟨1, "user".data, "c".data⟩]

/-- Resolver environment for the C8 witness: the current channel holds the
message with the long numeric id, and the channel also has recent history. -/
def envResolve : ResolveEnv where
  fetchCurrent := fun n => if n == 123456789012345678 then some ⟨n, false⟩ else none
  resolveChannel := fun _ => some ()
  fetchIn := fun _ _ => none
  recent := [⟨5, true⟩, ⟨6, false⟩]

/-! ## Character lemmas -/

/-- Evaluation lemma for `Char.ofNat` on valid scalar values below the
surrogate range. -/
theorem char_toNat_ofNat (n : Nat) (h : n < 55296) : (Char.ofNat n).toNat = n := by
  rw [Char.ofNat, dif_pos (Or.inl h : n.isValidChar)]
  rfl

theorem isWs_toUpper (c : Char) : isWs c.toUpper = isWs c := by
  unfold Char.toUpper
  by_cases h : c.toNat ≥ 97 ∧ c.toNat ≤ 122
  · rw [if_pos h]
    have h2 := char_toNat_ofNat (c.toNat - 32) (by omega)
    rw [Bool.eq_iff_iff]
    simp only [isWs, h2, Nat.beq_eq_true_eq, Bool.or_eq_true]
    omega
  · rw [if_neg h]

theorem isWs_toLower (c : Char) : isWs c.toLower = isWs c := by
  unfold Char.toLower
  by_cases h : c.toNat ≥ 65 ∧ c.toNat ≤ 90
  · rw [if_pos h]
    have h2 := char_toNat_ofNat (c.toNat + 32) (by omega)
    rw [Bool.eq_iff_iff]
    simp only [isWs, h2, Nat.beq_eq_true_eq, Bool.or_eq_true]
    omega
  · rw [if_neg h]

theorem isPunc_toUpper (c : Char) : isPunc c.toUpper = isPunc c := by
  unfold Char.toUpper
  by_cases h : c.toNat ≥ 97 ∧ c.toNat ≤ 122
  · rw [if_pos h]
    have h2 := char_toNat_ofNat (c.toNat - 32) (by omega)
    rw [Bool.eq_iff_iff]
    simp only [isPunc, h2, Nat.beq_eq_true_eq, Bool.or_eq_true]
    omega
  · rw [if_neg h]

theorem isPunc_toLower (c : Char) : isPunc c.toLower = isPunc c := by
  unfold Char.toLower
  by_cases h : c.toNat ≥ 65 ∧ c.toNat ≤ 90
  · rw [if_pos h]
    have h2 := char_toNat_ofNat (c.toNat + 32) (by omega)
    rw [Bool.eq_iff_iff]
    simp only [isPunc, h2, Nat.beq_eq_true_eq, Bool.or_eq_true]
    omega
  · rw [if_neg h]

theorem isTerm_toUpper (c : Char) : isTerm c.toUpper = isTerm c := by
  unfold Char.toUpper
  by_cases h : c.toNat ≥ 97 ∧ c.toNat ≤ 122
  · rw [if_pos h]
    have h2 := char_toNat_ofNat (c.toNat - 32) (by omega)
    rw [Bool.eq_iff_iff]
    simp only [isTerm, h2, Nat.beq_eq_true_eq, Bool.or_eq_true]
    omega
  · rw [if_neg h]

theorem isTerm_toLower (c : Char) : isTerm c.toLower = isTerm c := by
  unfold Char.toLower
  by_cases h : c.toNat ≥ 65 ∧ c.toNat ≤ 90
  · rw [if_pos h]
    have h2 := char_toNat_ofNat (c.toNat + 32) (by omega)
    rw [Bool.eq_iff_iff]
    simp only [isTerm, h2, Nat.beq_eq_true_eq, Bool.or_eq_true]
    omega
  · rw [if_neg h]

theorem isWordChar_toLower (c : Char) : isWordChar c.toLower = isWordChar c := by
  unfold Char.toLower
  by_cases h : c.toNat ≥ 65 ∧ c.toNat ≤ 90
  · rw [if_pos h]
    have h2 := char_toNat_ofNat (c.toNat + 32) (by omega)
    rw [Bool.eq_iff_iff]
    simp only [isWordChar, h2, Nat.beq_eq_true_eq, Bool.or_eq_true, Bool.and_eq_true,
      decide_eq_true_eq]
    omega
  · rw [if_neg h]

theorem toUpper_of_isWs {c : Char} (h : isWs c = true) : c.toUpper = c := by
  unfold Char.toUpper
  rw [if_neg]
  simp only [isWs, Nat.beq_eq_true_eq, Bool.or_eq_true] at h
  omega

theorem toLower_of_isWs {c : Char} (h : isWs c = true) : c.toLower = c := by
  unfold Char.toLower
  rw [if_neg]
  simp only [isWs, Nat.beq_eq_true_eq, Bool.or_eq_true] at h
  omega

theorem toUpper_of_isTerm {c : Char} (h : isTerm c = true) : c.toUpper = c := by
  unfold Char.toUpper
  rw [if_neg]
  simp only [isTerm, Nat.beq_eq_true_eq, Bool.or_eq_true] at h
  omega

theorem toLower_of_isTerm {c : Char} (h : isTerm c = true) : c.toLower = c := by
  unfold Char.toLower
  rw [if_neg]
  simp only [isTerm, Nat.beq_eq_true_eq, Bool.or_eq_true] at h
  omega

theorem toUpper_toUpper (c : Char) : c.toUpper.toUpper = c.toUpper := by
  unfold Char.toUpper
  by_cases h : c.toNat ≥ 97 ∧ c.toNat ≤ 122
  · rw [if_pos h]
    have h2 := char_toNat_ofNat (c.toNat - 32) (by omega)
    rw [if_neg]
    omega
  · rw [if_neg h, if_neg h]

theorem toLower_toLower (c : Char) : c.toLower.toLower = c.toLower := by
  unfold Char.toLower
  by_cases h : c.toNat ≥ 65 ∧ c.toNat ≤ 90
  · rw [if_pos h]
    have h2 := char_toNat_ofNat (c.toNat + 32) (by omega)
    rw [if_neg]
    omega
  · rw [if_neg h, if_neg h]

theorem isWs_eq_false_of_isTerm {c : Char} (h : isTerm c = true) : isWs c = false := by
  simp only [isTerm, Nat.beq_eq_true_eq, Bool.or_eq_true] at h
  rw [Bool.eq_false_iff, Ne, Bool.eq_iff_iff]
  simp only [isWs, Nat.beq_eq_true_eq, Bool.or_eq_true, iff_true]
  omega

/-! ## Sanity checks of the fallback transform against the source behaviour -/

example : fallbackRepair " a B".data = "A b".data := by decide
example : fallbackRepair "hello  world .How are  you?  fine".data
    = "Hello world.how are you? Fine".data := by decide
example : fallbackRepair "  a ".data = "A".data := by decide
example : fallbackRepair "a.. b".data = "A.. B".data := by decide
example : fallbackRepair "x. ".data = "X.".data := by decide
example : fallbackRepair "a \t, b".data = "A, b".data := by decide
example : fallbackRepair "one. two? THREE! four,five".data
    = "One. Two? Three! Four,five".data := by decide
example : fallbackRepair " . x".data = ". X".data := by decide
example : fallbackRepair "tab\tnew\nline".data = "Tab new line".data := by decide
example : fallbackRepair "a  ,  b".data = "A, b".data := by decide
example : fallbackRepair "..  ..".data = "....".data := by decide
example : fallbackRepair "? !x".data = "?!x".data := by decide
example : contains_profanity "you Badword1 now".data = true := by decide
example : contains_profanity "xbadword1".data = false := by decide
example : contains_profanity "badword1x".data = false := by decide
example : contains_profanity "BADWORD2, yes".data = true := by decide
example : contains_profanity "hello".data = false := by decide

/-! ## Claim theorems: moderation commands -/

/-- C5: for every timeout command invocation by an authorized invoker with
`minutes < 0` or `minutes > 40320`, the handler responds with exactly the
range-error message, delivered ephemerally, performs no platform timeout
action, and emits no confirmation-of-intent message (no other response and
no channel message at all). -/
theorem timeout_out_of_range_rejected (ownerId invokerId : Nat) (hasModPerm : Bool)
    (memberName memberMention : String) (minutes : Int) (reason : Option String)
    (platformErr : Option String)
    (hauth : hasModPerm = true ∨ invokerId = ownerId)
    (hrange : minutes < 0 ∨ minutes > 40320) :
    cmd_timeout ownerId invokerId hasModPerm memberName memberMention minutes reason
        platformErr
      = ⟨[("Minutes must be between 0 and 40320.", true)], [], none⟩ := by
  unfold cmd_timeout
  have h1 : (!hasModPerm && invokerId != ownerId) = false := by
    rcases hauth with h | h
    · simp [h]
    · simp [h]
  rw [h1]
  have h2 : (decide (minutes < 0) || decide (minutes > 40320)) = true := by
    rcases hrange with h | h <;> simp [h]
  simp only [Bool.false_eq_true, if_false, h2, if_true]

/-- Witness for C5 at the spec's scenario `minutes = 50000` with a
permitted invoker. -/
theorem timeout_out_of_range_rejected_witness :
    cmd_timeout 1 2 true "m" "@m" 50000 none none
      = ⟨[("Minutes must be between 0 and 40320.", true)], [], none⟩ :=
  timeout_out_of_range_rejected 1 2 true "m" "@m" 50000 none none (Or.inl rfl)
    (Or.inr (by decide))

/-- C6: for every kick command invocation where the invoker lacks the
kick-members permission and is not the configured owner, the handler sends
exactly the ephemeral permission-denied response, attempts no kick, and
emits no confirmation or channel message, leaving the target unaffected. -/
theorem kick_unauthorized_rejected (ownerId invokerId : Nat)
    (memberName memberMention : String) (reason : Option String)
    (platformErr : Option String) (hid : invokerId ≠ ownerId) :
    cmd_kick ownerId invokerId false memberName memberMention reason platformErr
      = ⟨[("You don\x27t have permission to kick members.", true)], [], none⟩ := by
  unfold cmd_kick
  have h1 : (!(false : Bool) && invokerId != ownerId) = true := by
    simp [hid]
  rw [h1]
  rfl

/-- Witness for C6: invoker 5 without kick permission, owner 7. -/
theorem kick_unauthorized_rejected_witness :
    cmd_kick 7 5 false "m" "@m" none none
      = ⟨[("You don\x27t have permission to kick members.", true)], [], none⟩ :=
  kick_unauthorized_rejected 7 5 "m" "@m" none none (by decide)

/-- C10: for every timeout command invocation by an authorized invoker with
`minutes = 0` and a successful platform call, the value is not rejected and
no zero-length timeout is applied: the handler sends the confirmation, the
platform timeout operation is invoked with a null expiry
(`member.timeout(None)`), and the removal is reported on the channel. -/
theorem timeout_zero_removes (ownerId invokerId : Nat) (hasModPerm : Bool)
    (memberName memberMention : String) (reason : Option String)
    (hauth : hasModPerm = true ∨ invokerId = ownerId) :
    cmd_timeout ownerId invokerId hasModPerm memberName memberMention 0 reason none
      = ⟨[(make_chatgpt_confirmation "timeout for 0 minutes" memberName reason, false)],
         [memberMention ++ " timeout removed. Reason: " ++ reason.getD "No reason provided."],
         some PlatformAction.timeoutRemove⟩ := by
  unfold cmd_timeout
  have h1 : (!hasModPerm && invokerId != ownerId) = false := by
    rcases hauth with h | h
    · simp [h]
    · simp [h]
  rw [h1]
  rfl

/-- Witness for C10: owner-bypass invoker, `minutes = 0`. -/
theorem timeout_zero_removes_witness :
    cmd_timeout 3 3 false "m" "@m" 0 none none
      = ⟨[(make_chatgpt_confirmation "timeout for 0 minutes" "m" none, false)],
         ["@m timeout removed. Reason: " ++ (none : Option String).getD "No reason provided."],
         some PlatformAction.timeoutRemove⟩ :=
  timeout_zero_removes 3 3 false "m" "@m" none (Or.inr rfl)

/-! ## Claim theorems: history store -/

/-- Helper: taking `n` from the reversed list and reversing back keeps the
last `n` elements in their original order. -/
theorem reverse_take_reverse_eq_drop {α : Type} (l : List α) (n : Nat) :
    (l.reverse.take n).reverse = l.drop (l.length - n) := by
  rw [List.take_reverse, List.reverse_reverse]

/-- C7: `load_history_for_channel` returns at most `limit` rows; the rows
returned are exactly the final segment (the most recent rows) of the
channel's rows in insertion order, projected to (role, content) — hence
oldest-first, non-decreasing by insertion time; and when the channel has at
most `limit` rows, all of them are returned. -/
theorem load_recent_bounded_ordered_complete (hist : List HistoryEntry)
    (channel_id limit : Nat) (hlim : 1 ≤ limit) :
    (load_history_for_channel hist channel_id limit).length ≤ limit ∧
    load_history_for_channel hist channel_id limit
      = ((hist.filter (fun e => e.channel_id == channel_id)).drop
          ((hist.filter (fun e => e.channel_id == channel_id)).length - limit)).map
          (fun e => (e.role, e.content)) ∧
    ((hist.filter (fun e => e.channel_id == channel_id)).length ≤ limit →
      load_history_for_channel hist channel_id limit
        = (hist.filter (fun e => e.channel_id == channel_id)).map
            (fun e => (e.role, e.content))) := by
  unfold load_history_for_channel
  rw [List.take_reverse, List.reverse_reverse]
  refine ⟨?_, rfl, ?_⟩
  · rw [List.length_map, List.length_drop]
    omega
  · intro hle
    have h0 : (hist.filter (fun e => e.channel_id == channel_id)).length - limit = 0 := by
      omega
    rw [h0, List.drop_zero]

/-- Witness for C7 on a concrete four-row table with `limit = 2`. -/
theorem load_recent_bounded_ordered_complete_witness :
    (load_history_for_channel histW 1 2).length ≤ 2 ∧
    load_history_for_channel histW 1 2
      = ((histW.filter (fun e => e.channel_id == 1)).drop
          ((histW.filter (fun e => e.channel_id == 1)).length - 2)).map
          (fun e => (e.role, e.content)) ∧
    ((histW.filter (fun e => e.channel_id == 1)).length ≤ 2 →
      load_history_for_channel histW 1 2
        = (histW.filter (fun e => e.channel_id == 1)).map
            (fun e => (e.role, e.content))) :=
  load_recent_bounded_ordered_complete histW 1 2 (by decide)

/-! ## Claim theorems: identifier resolution -/

/-- Helper for C8: a string of digits can never contain the literal
`channels/` pattern, so the deep-link regex cannot match it. -/
theorem findLinkMatch_of_digits (s : List Char) (h : s.all isDigitChar = true) :
    findLinkMatch s = none := by
  induction s with
  | nil => rfl
  | cons c cs ih =>
    rw [List.all_cons, Bool.and_eq_true] at h
    rw [findLinkMatch]
    have hpl : parseLinkAt (c :: cs) = none := by
      unfold parseLinkAt
      rw [if_neg]
      intro heq
      have h9 : (0 : Nat) < 9 := by omega
      have : (c :: cs).take 9 = c :: cs.take 8 := by
        simp [List.take_succ_cons]
      rw [this] at heq
      have hc : c = 'c' := (List.cons.injEq _ _ _ _ ▸ heq).1
      rw [hc] at h
      simp [isDigitChar] at h
    rw [hpl]
    exact ih h.2

/-- C8: for every identifier consisting solely of digits, the resolver
takes the bare-numeric path first — the first platform lookup attempted is
`fetch_message` of that id in the current channel — the deep-link pattern
cannot even match such an identifier (so no link lookup is ever attempted),
and when the bare-numeric fetch succeeds its message is the result, with no
further lookup. -/
theorem numeric_identifier_precedence (env : ResolveEnv) (s : List Char)
    (h : isDigitStr s = true) :
    (fetch_message_from_identifier env (some s)).2.head?
      = some (ResolveStep.fetchCurrent (digitsToNat s)) ∧
    (∀ st ∈ (fetch_message_from_identifier env (some s)).2, ∀ ch mid,
      st ≠ ResolveStep.fetchLink ch mid) ∧
    (∀ m, env.fetchCurrent (digitsToNat s) = some m →
      fetch_message_from_identifier env (some s)
        = (some m, [ResolveStep.fetchCurrent (digitsToNat s)])) := by
  have hdig : s.all isDigitChar = true := by
    unfold isDigitStr at h
    exact (Bool.and_eq_true .. ▸ h).2
  have hlink := findLinkMatch_of_digits s hdig
  simp only [fetch_message_from_identifier]
  rw [if_pos h]
  cases hfc : env.fetchCurrent (digitsToNat s) with
  | some m =>
    refine ⟨rfl, ?_, ?_⟩
    · intro st hst ch mid
      simp only [List.mem_singleton] at hst
      subst hst
      intro hcontra
      exact ResolveStep.noConfusion hcontra
    · intro m2 hm2
      cases hm2
      rfl
  | none =>
    rw [hlink]
    refine ⟨rfl, ?_, ?_⟩
    · intro st hst ch mid
      simp only [historyFallback, List.cons_append, List.nil_append, List.mem_cons,
        List.not_mem_nil, or_false] at hst
      rcases hst with hst | hst <;> subst hst <;> intro hcontra <;>
        exact ResolveStep.noConfusion hcontra
    · intro m2 hm2
      exact absurd hm2 (by simp)

/-- Witness for C8 at the identifier of the spec scenario,
`123456789012345678`. -/
theorem numeric_identifier_precedence_witness :
    (fetch_message_from_identifier envResolve (some "123456789012345678".data)).2.head?
      = some (ResolveStep.fetchCurrent (digitsToNat "123456789012345678".data)) ∧
    (∀ st ∈ (fetch_message_from_identifier envResolve (some "123456789012345678".data)).2,
      ∀ ch mid, st ≠ ResolveStep.fetchLink ch mid) ∧
    (∀ m, envResolve.fetchCurrent (digitsToNat "123456789012345678".data) = some m →
      fetch_message_from_identifier envResolve (some "123456789012345678".data)
        = (some m, [ResolveStep.fetchCurrent (digitsToNat "123456789012345678".data)])) :=
  numeric_identifier_precedence envResolve "123456789012345678".data (by decide)

/-! ## Claim theorems: content safety gate -/

/-- Helper for C3: a case-insensitive whole-word occurrence makes the
lowercased-text whole-word search succeed. -/
theorem wholeWordSearch_of_occurrence {w text : List Char}
    (h : SpecWholeWordOccurrence w text) :
    wholeWordSearch w (text.map Char.toLower) = true := by
  obtain ⟨pre, mid, post, htext, hmid, hpre, hpost⟩ := h
  subst htext
  have hwlen : w.length = mid.length := by
    rw [← hmid, List.length_map]
  unfold wholeWordSearch
  rw [List.any_eq_true]
  refine ⟨pre.length, List.mem_range.mpr ?_, ?_⟩
  · simp only [List.length_map, List.length_append]
    omega
  · unfold wholeWordAt
    simp only [List.map_append]
    rw [Bool.and_eq_true, Bool.and_eq_true]
    refine ⟨⟨?_, ?_⟩, ?_⟩
    · rw [decide_eq_true_eq]
      have e0 : pre.length = (pre.map Char.toLower).length := (List.length_map ..).symm
      rw [List.append_assoc]
      rw [show (pre.map Char.toLower ++ (mid.map Char.toLower ++ post.map Char.toLower)).drop
            pre.length
          = mid.map Char.toLower ++ post.map Char.toLower from by
        rw [e0, List.drop_left]]
      rw [hwlen]
      rw [show (mid.map Char.toLower ++ post.map Char.toLower).take mid.length
          = mid.map Char.toLower from by
        rw [show mid.length = (mid.map Char.toLower).length from (List.length_map ..).symm,
          List.take_left]]
      exact hmid
    · rcases List.eq_nil_or_concat pre with hnil | ⟨pre0, a, rfl⟩
      · subst hnil
        simp
      · simp only [List.concat_eq_append] at hpre ⊢
        have ha : isWordChar a = false := hpre a (by simp)
        rw [Bool.or_eq_true]
        right
        have hlen : (pre0 ++ [a]).length - 1 = pre0.length := by
          simp
        have hval : ((pre0 ++ [a]).map Char.toLower ++ (mid.map Char.toLower
              ++ post.map Char.toLower)).getD ((pre0 ++ [a]).length - 1) (Char.ofNat 0)
            = Char.toLower a := by
          rw [hlen]
          simp only [List.map_append, List.map_cons, List.map_nil, List.append_assoc]
          rw [List.getD_eq_getElem?_getD]
          rw [List.getElem?_append_right (by simp : (pre0.map Char.toLower).length ≤ pre0.length)]
          simp
        rw [List.append_assoc, hval, Bool.not_eq_true', isWordChar_toLower]
        exact ha
    · have hj : pre.length + w.length
          = (pre.map Char.toLower ++ mid.map Char.toLower).length := by
        simp [hwlen]
      have hval : ((pre.map Char.toLower ++ mid.map Char.toLower) ++ post.map Char.toLower).getD
            (pre.length + w.length) (Char.ofNat 0)
          = ((post.map Char.toLower).getD 0 (Char.ofNat 0)) := by
        rw [List.getD_eq_getElem?_getD, List.getD_eq_getElem?_getD]
        rw [List.getElem?_append_right (by omega : (pre.map Char.toLower
            ++ mid.map Char.toLower).length ≤ pre.length + w.length)]
        rw [hj, Nat.sub_self]
      rw [hval, Bool.not_eq_true']
      cases post with
      | nil => decide
      | cons b t =>
        have hb : isWordChar b = false := hpost b rfl
        simp only [List.map_cons, List.getD_cons_zero]
        rw [isWordChar_toLower]
        exact hb

/-- C3: for every text containing a denylisted term as a case-insensitive
whole word, `is_content_safe` returns unsafe and performs no external
moderation call, for every configuration and moderation behaviour. -/
theorem denylist_hit_unsafe_no_external_call (cfg : Bool)
    (mod : List Char → Option Bool) (text : List Char)
    (h : ∃ w ∈ PROFANITY, SpecWholeWordOccurrence w text) :
    is_content_safe cfg mod text = ⟨false, false⟩ := by
  obtain ⟨w, hw, hocc⟩ := h
  have hcp : contains_profanity text = true := by
    unfold contains_profanity
    rw [List.any_eq_true]
    exact ⟨w, hw, wholeWordSearch_of_occurrence hocc⟩
  unfold is_content_safe
  rw [if_pos hcp]

/-- Witness for C3: the text `you Badword1, yes` contains `badword1`
case-insensitively as a whole word; the moderation oracle would answer
`not flagged` if it were (wrongly) consulted. -/
theorem denylist_hit_unsafe_no_external_call_witness :
    is_content_safe true (fun _ => some false) "you Badword1, yes".data
      = ⟨false, false⟩ :=
  denylist_hit_unsafe_no_external_call true (fun _ => some false) "you Badword1, yes".data
    ⟨"badword1".data, by decide,
      "you ".data, "Badword1".data, ", yes".data, by decide, by decide,
      by intro a ha; cases ha; decide, by intro b hb; cases hb; decide⟩

/-! ## Claim theorems: chat turn handler -/

/-- C1: every accepted chat turn — a non-bot message replying to a bot
message whose text passes the safety gate — appends exactly two history
rows for that channel, a `user` row with the incoming text followed by an
`assistant` row whose content is the reply actually sent (after the output
safety re-check), and sends a non-null reply. -/
theorem accepted_chat_turn_two_entries (env : BotEnv) (hist : List HistoryEntry)
    (msg : InboundMessage)
    (hbot : msg.authorIsBot = false) (href : msg.replyRefIsBotMessage = true)
    (hsafe : (is_content_safe env.openaiConfigured env.moderation msg.content).safe = true) :
    ∃ r, (on_message env hist msg).reply = some r ∧
      (on_message env hist msg).hist
        = hist ++ [⟨msg.channel_id, "user".data, msg.content⟩,
                   ⟨msg.channel_id, "assistant".data, r⟩] := by
  unfold on_message
  rw [hbot, href]
  simp only [Bool.false_eq_true, if_false, if_true, hsafe, Bool.not_true]
  refine ⟨_, rfl, ?_⟩
  simp [save_message_to_history]

/-- Witness for C1: no backend configured, empty history, a plain reply to
the bot. -/
theorem accepted_chat_turn_two_entries_witness :
    ∃ r, (on_message envPlain [] msgHi).reply = some r ∧
      (on_message envPlain [] msgHi).hist
        = [] ++ [⟨msgHi.channel_id, "user".data, msgHi.content⟩,
                 ⟨msgHi.channel_id, "assistant".data, r⟩] :=
  accepted_chat_turn_two_entries envPlain [] msgHi (by decide) (by decide) (by decide)

/-- C4 counterexample: the claim fails as stated because the apology reply
still passes through the output safety re-check.  With a backend configured
whose completion call raises and a moderation service that flags exactly
the apology string, the reply finally sent is the output refusal, not the
apology. -/
theorem completion_error_apology_counterexample :
    envFlagApology.completion (chatPrompt [] msgHi.channel_id msgHi.content) = none ∧
    (is_content_safe envFlagApology.openaiConfigured envFlagApology.moderation
      msgHi.content).safe = true ∧
    (on_message envFlagApology [] msgHi).reply = some REFUSAL_OUTPUT ∧
    REFUSAL_OUTPUT ≠ APOLOGY := by
  refine ⟨rfl, by decide, by decide, by decide⟩

/-- C4 (amended): for every accepted chat turn in which the configured
completion backend raises, provided the external moderation service does
not flag the fixed apology string, the reply finally sent equals the
apology string and that same string is the content persisted as the
`assistant` history row of the turn. -/
theorem completion_error_sends_apology (env : BotEnv) (hist : List HistoryEntry)
    (msg : InboundMessage)
    (hbot : msg.authorIsBot = false) (href : msg.replyRefIsBotMessage = true)
    (hsafe : (is_content_safe env.openaiConfigured env.moderation msg.content).safe = true)
    (hcfg : env.openaiConfigured = true)
    (herr : env.completion (chatPrompt hist msg.channel_id msg.content) = none)
    (hmod : env.moderation APOLOGY ≠ some true) :
    (on_message env hist msg).reply = some APOLOGY ∧
    (on_message env hist msg).hist
      = hist ++ [⟨msg.channel_id, "user".data, msg.content⟩,
                 ⟨msg.channel_id, "assistant".data, APOLOGY⟩] := by
  have hsafeout : (is_content_safe env.openaiConfigured env.moderation APOLOGY).safe
      = true := by
    unfold is_content_safe
    rw [if_neg (by decide), if_pos (by rw [hcfg] : env.openaiConfigured = true)]
    cases hm : env.moderation APOLOGY with
    | none => rfl
    | some b =>
      cases b with
      | true => exact absurd hm hmod
      | false => rfl
  rw [hcfg] at hsafe hsafeout
  unfold on_message
  rw [hbot, href]
  simp only [Bool.false_eq_true, if_false, if_true, hcfg, hsafe, Bool.not_true, herr,
    hsafeout]
  constructor
  · trivial
  · simp [save_message_to_history]

/-- Witness for the amended C4: backend configured, completion raises,
moderation raises too (fail-open). -/
theorem completion_error_sends_apology_witness :
    (on_message envBackendDown [] msgHi).reply = some APOLOGY ∧
    (on_message envBackendDown [] msgHi).hist
      = [] ++ [⟨msgHi.channel_id, "user".data, msgHi.content⟩,
               ⟨msgHi.channel_id, "assistant".data, APOLOGY⟩] :=
  completion_error_sends_apology envBackendDown [] msgHi (by decide) (by decide)
    (by decide) (by decide) rfl (by decide)

/-! ## Pair-invariant algebra -/

theorem pairsOK_cons_cons {bad : Char → Char → Bool} {a b : Char} {t : List Char} :
    pairsOK bad (a :: b :: t) = true ↔ bad a b = false ∧ pairsOK bad (b :: t) = true := by
  have he : pairsOK bad (a :: b :: t) = (!bad a b && pairsOK bad (b :: t)) := rfl
  rw [he, Bool.and_eq_true, Bool.not_eq_true']

theorem pairsOK_tail {bad : Char → Char → Bool} {a : Char} {t : List Char}
    (h : pairsOK bad (a :: t) = true) : pairsOK bad t = true := by
  cases t with
  | nil => rfl
  | cons b t2 => exact (pairsOK_cons_cons.mp h).2

theorem pairsOK_append {bad : Char → Char → Bool} {p u : List Char} :
    pairsOK bad (p ++ u) = true ↔
      pairsOK bad p = true ∧ pairsOK bad u = true ∧
      (∀ a b, p.getLast? = some a → u.head? = some b → bad a b = false) := by
  induction p with
  | nil =>
    simp only [List.nil_append, List.getLast?_nil]
    constructor
    · intro h
      exact ⟨rfl, h, by intro a b hab; cases hab⟩
    · intro h
      exact h.2.1
  | cons a p ih =>
    cases p with
    | nil =>
      cases u with
      | nil =>
        simp only [List.append_nil, List.head?_nil]
        constructor
        · intro h
          exact ⟨h, rfl, by intro x y hx hy; cases hy⟩
        · intro h
          exact h.1
      | cons b t =>
        simp only [List.singleton_append, List.getLast?_singleton, List.head?_cons]
        rw [pairsOK_cons_cons]
        constructor
        · intro h
          refine ⟨rfl, h.2, ?_⟩
          intro x y hx hy
          cases hx
          cases hy
          exact h.1
        · intro h
          exact ⟨h.2.2 a b rfl rfl, h.2.1⟩
    | cons a2 p2 =>
      rw [List.cons_append, List.cons_append, pairsOK_cons_cons, ← List.cons_append, ih,
        pairsOK_cons_cons]
      constructor
      · intro h
        refine ⟨⟨h.1, h.2.1⟩, h.2.2.1, ?_⟩
        intro x y hx hy
        refine h.2.2.2 x y ?_ hy
        rw [List.getLast?_cons_cons] at hx
        exact hx
      · intro h
        refine ⟨h.1.1, h.1.2, h.2.1, ?_⟩
        intro x y hx hy
        refine h.2.2 x y ?_ hy
        rw [List.getLast?_cons_cons]
        exact hx

theorem pairsOK_of_suffix {bad : Char → Char → Bool} {t l : List Char}
    (hs : t <:+ l) (h : pairsOK bad l = true) : pairsOK bad t = true := by
  obtain ⟨p, rfl⟩ := hs
  exact (pairsOK_append.mp h).2.1

theorem pairsOK_of_prefix {bad : Char → Char → Bool} {t l : List Char}
    (hs : t <+: l) (h : pairsOK bad l = true) : pairsOK bad t = true := by
  obtain ⟨p, rfl⟩ := hs
  exact (pairsOK_append.mp h).1

theorem pairsOK_reverse {bad : Char → Char → Bool}
    (hsym : ∀ a b, bad a b = bad b a) (l : List Char) :
    pairsOK bad l.reverse = pairsOK bad l := by
  induction l with
  | nil => rfl
  | cons a t ih =>
    rw [List.reverse_cons, Bool.eq_iff_iff, pairsOK_append]
    cases t with
    | nil => simp [pairsOK]
    | cons b t2 =>
      rw [pairsOK_cons_cons]
      constructor
      · intro h
        refine ⟨?_, ?_⟩
        · rw [← hsym]
          refine h.2.2 b a ?_ rfl
          rw [List.getLast?_reverse]
          rfl
        · rw [← ih]
          exact h.1
      · intro h
        refine ⟨by rw [ih]; exact h.2, by unfold pairsOK; rfl, ?_⟩
        intro x y hx hy
        cases hy
        rw [List.getLast?_reverse] at hx
        simp only [List.head?_cons] at hx
        cases hx
        rw [hsym]
        exact h.1

/-! ## Whitespace-handling helpers -/

theorem head_dropWhile_not {p : Char → Bool} {l t : List Char} {c : Char}
    (h : l.dropWhile p = c :: t) : p c = false := by
  induction l with
  | nil => cases h
  | cons a l2 ih =>
    rw [List.dropWhile_cons] at h
    by_cases hp : p a = true
    · rw [if_pos hp] at h
      exact ih h
    · rw [if_neg hp] at h
      cases h
      exact Bool.not_eq_true _ ▸ hp

theorem headNonWs_dropWhile (l : List Char) : headNonWs (l.dropWhile isWs) = true := by
  cases hd : l.dropWhile isWs with
  | nil => rfl
  | cons c t =>
    have he : headNonWs (c :: t) = !isWs c := rfl
    rw [he, head_dropWhile_not hd]
    rfl

theorem all_takeWhile (p : Char → Bool) (l : List Char) :
    (l.takeWhile p).all p = true := by
  induction l with
  | nil => rfl
  | cons a l2 ih =>
    rw [List.takeWhile_cons]
    by_cases hp : p a = true
    · rw [if_pos hp, List.all_cons, hp, Bool.true_and]
      exact ih
    · rw [if_neg hp]
      rfl

theorem takeWhile_append_of_headNonWs {l r : List Char} (hl : l.all isWs = true)
    (hr : r = [] ∨ ∃ c t, r = c :: t ∧ isWs c = false) :
    (l ++ r).takeWhile isWs = l ∧ (l ++ r).dropWhile isWs = r := by
  induction l with
  | nil =>
    simp only [List.nil_append]
    rcases hr with rfl | ⟨c, t, rfl, hc⟩
    · exact ⟨rfl, rfl⟩
    · rw [List.takeWhile_cons, List.dropWhile_cons, hc]
      exact ⟨rfl, rfl⟩
  | cons a l2 ih =>
    rw [List.all_cons, Bool.and_eq_true] at hl
    rw [List.cons_append, List.takeWhile_cons, List.dropWhile_cons, hl.1]
    have h2 := ih hl.2
    simp only [if_true]
    exact ⟨by rw [h2.1], h2.2⟩

/-! ## Invariants established by the collapse pass -/

theorem collapseWsRe_head (c : Char) (cs : List Char) :
    (collapseWsRe (c :: cs)).head? = some (if isWs c then ' ' else c) := by
  induction cs generalizing c with
  | nil =>
    unfold collapseWsRe
    by_cases h : isWs c = true
    · rw [if_pos h, if_pos h]
      rfl
    · rw [if_neg h, if_neg h]
      rfl
  | cons d t ih =>
    unfold collapseWsRe
    by_cases h : isWs c = true
    · rw [if_pos h, if_pos h]
      by_cases hd : isWs d = true
      · rw [if_pos hd, ih d, if_pos hd]
      · rw [if_neg hd]
        rfl
    · rw [if_neg h, if_neg h]
      rfl


/-! ## Invariants established by the collapse pass -/

theorem collapseWsRe_wsOnlySpace (l : List Char) : wsOnlySpace (collapseWsRe l) = true := by
  induction l using collapseWsRe.induct with
  | case1 => rfl
  | case2 c hc =>
    unfold collapseWsRe
    rw [if_pos hc]
    rfl
  | case3 c hc =>
    have hfc := Bool.eq_false_iff.mpr hc
    unfold collapseWsRe
    rw [if_neg hc]
    simp [wsOnlySpace, hfc]
  | case4 c d t hc hd ih =>
    unfold collapseWsRe
    rw [if_pos hc, if_pos hd]
    exact ih
  | case5 c d t hc hd ih =>
    unfold collapseWsRe
    rw [if_pos hc, if_neg hd]
    unfold wsOnlySpace at ih ⊢
    rw [List.all_cons, ih, Bool.and_true]
    rfl
  | case6 c d t hc ih =>
    have hfc := Bool.eq_false_iff.mpr hc
    unfold collapseWsRe
    rw [if_neg hc]
    unfold wsOnlySpace at ih ⊢
    rw [List.all_cons, ih, Bool.and_true, hfc]
    rfl

theorem collapseWsRe_noAdjWs (l : List Char) : noAdjWs (collapseWsRe l) = true := by
  induction l using collapseWsRe.induct with
  | case1 => rfl
  | case2 c hc =>
    unfold collapseWsRe
    rw [if_pos hc]
    rfl
  | case3 c hc =>
    unfold collapseWsRe
    rw [if_neg hc]
    rfl
  | case4 c d t hc hd ih =>
    unfold collapseWsRe
    rw [if_pos hc, if_pos hd]
    exact ih
  | case5 c d t hc hd ih =>
    have hfd := Bool.eq_false_iff.mpr hd
    unfold collapseWsRe
    rw [if_pos hc, if_neg hd]
    cases hx : collapseWsRe (d :: t) with
    | nil => rfl
    | cons e x2 =>
      have hhead := collapseWsRe_head d t
      rw [hx, if_neg hd] at hhead
      have he : e = d := by
        cases hhead
        rfl
      rw [hx] at ih
      unfold noAdjWs at ih ⊢
      rw [pairsOK_cons_cons]
      refine ⟨?_, ih⟩
      rw [he, hfd, Bool.and_false]
  | case6 c d t hc ih =>
    have hfc := Bool.eq_false_iff.mpr hc
    unfold collapseWsRe
    rw [if_neg hc]
    cases hx : collapseWsRe (d :: t) with
    | nil => rfl
    | cons e x2 =>
      rw [hx] at ih
      unfold noAdjWs at ih ⊢
      rw [pairsOK_cons_cons]
      refine ⟨?_, ih⟩
      rw [hfc, Bool.false_and]

/-! ## Invariants and behaviour of the strip pass -/

theorem pairsOK_stripWs {bad : Char → Char → Bool} (hsym : ∀ a b, bad a b = bad b a)
    {l : List Char} (h : pairsOK bad l = true) : pairsOK bad (stripWs l) = true := by
  unfold stripWs
  rw [pairsOK_reverse hsym]
  refine pairsOK_of_suffix (List.dropWhile_suffix isWs) ?_
  rw [pairsOK_reverse hsym]
  exact pairsOK_of_suffix (List.dropWhile_suffix isWs) h

theorem all_stripWs {p : Char → Bool} {l : List Char} (h : l.all p = true) :
    (stripWs l).all p = true := by
  rw [List.all_eq_true] at h ⊢
  intro x hx
  apply h
  unfold stripWs at hx
  rw [List.mem_reverse] at hx
  have hx2 := (List.dropWhile_sublist isWs).subset hx
  rw [List.mem_reverse] at hx2
  exact (List.dropWhile_sublist isWs).subset hx2

theorem headNonWs_of_prefix {s t : List Char} (hp : s <+: t) (h : headNonWs t = true) :
    headNonWs s = true := by
  cases s with
  | nil => rfl
  | cons c s2 =>
    obtain ⟨r, rfl⟩ := hp
    exact h

theorem lastNonWs_stripWs (l : List Char) : lastNonWs (stripWs l) = true := by
  unfold lastNonWs stripWs
  rw [List.reverse_reverse]
  exact headNonWs_dropWhile _

theorem headNonWs_stripWs (l : List Char) : headNonWs (stripWs l) = true := by
  have hpre : stripWs l <+: l.dropWhile isWs := by
    unfold stripWs
    have hsuf := List.dropWhile_suffix (l := (l.dropWhile isWs).reverse) isWs
    rw [← List.reverse_prefix] at hsuf
    rw [List.reverse_reverse] at hsuf
    exact hsuf
  exact headNonWs_of_prefix hpre (headNonWs_dropWhile l)

theorem dropWhile_eq_self_of_headNonWs {l : List Char} (h : headNonWs l = true) :
    l.dropWhile isWs = l := by
  cases l with
  | nil => rfl
  | cons c t =>
    have hc : isWs c = false := Bool.not_eq_true' .. ▸ h
    rw [List.dropWhile_cons, hc]
    rfl

theorem stripWs_eq_self {l : List Char} (h1 : headNonWs l = true)
    (h2 : lastNonWs l = true) : stripWs l = l := by
  unfold stripWs
  rw [dropWhile_eq_self_of_headNonWs h1]
  unfold lastNonWs at h2
  rw [dropWhile_eq_self_of_headNonWs h2, List.reverse_reverse]

/-! ## Behaviour of the punctuation-spacing pass -/

theorem specRm_cons_cons (a b : Char) (t : List Char) :
    specRmSpaceBeforePunct (a :: b :: t)
      = if (isWs a && isPunc b) = true then specRmSpaceBeforePunct (b :: t)
        else a :: specRmSpaceBeforePunct (b :: t) := by
  simp only [specRmSpaceBeforePunct]

theorem specRm_cons_of_not_ws {b : Char} (t : List Char) (hb : isWs b = false) :
    specRmSpaceBeforePunct (b :: t) = b :: specRmSpaceBeforePunct t := by
  cases t with
  | nil => rfl
  | cons x t2 =>
    rw [specRm_cons_cons, hb, Bool.false_and, if_neg (by simp)]

theorem rmWsPunct_eq_specRm {l : List Char} (h : noAdjWs l = true) :
    rmWsPunct l = specRmSpaceBeforePunct l := by
  induction l with
  | nil => rfl
  | cons c cs ih =>
    have htail : noAdjWs cs = true := pairsOK_tail h
    by_cases hc : isWs c = true
    · cases cs with
      | nil =>
        unfold rmWsPunct
        rw [if_pos hc]
        rfl
      | cons b t =>
        have hb : isWs b = false := by
          have := (pairsOK_cons_cons.mp h).1
          rw [hc, Bool.true_and] at this
          exact this
        have hdw : (b :: t).dropWhile isWs = b :: t := by
          rw [List.dropWhile_cons, hb]
          rfl
        unfold rmWsPunct
        rw [if_pos hc, hdw]
        show (if isPunc b = true then rmWsPunct (b :: t) else c :: rmWsPunct (b :: t))
          = specRmSpaceBeforePunct (c :: b :: t)
        rw [specRm_cons_cons, hc, Bool.true_and]
        by_cases hp : isPunc b = true
        · rw [if_pos hp, if_pos hp]
          exact ih htail
        · rw [if_neg hp, if_neg hp, ih htail]
    · have hfc := Bool.eq_false_iff.mpr hc
      unfold rmWsPunct
      rw [if_neg hc]
      rw [specRm_cons_of_not_ws cs hfc, ih htail]

theorem specRm_ne_nil {l : List Char} (h : l ≠ []) : specRmSpaceBeforePunct l ≠ [] := by
  induction l with
  | nil => exact absurd rfl h
  | cons a t ih =>
    cases t with
    | nil => simp [specRmSpaceBeforePunct]
    | cons b t2 =>
      rw [specRm_cons_cons]
      by_cases hcond : (isWs a && isPunc b) = true
      · rw [if_pos hcond]
        exact ih (by simp)
      · rw [if_neg hcond]
        simp

theorem specRm_sublist (l : List Char) : List.Sublist (specRmSpaceBeforePunct l) l := by
  induction l with
  | nil => exact List.Sublist.refl []
  | cons a t ih =>
    cases t with
    | nil => exact List.Sublist.refl [a]
    | cons b t2 =>
      rw [specRm_cons_cons]
      by_cases hcond : (isWs a && isPunc b) = true
      · rw [if_pos hcond]
        exact List.Sublist.cons a ih
      · rw [if_neg hcond]
        exact List.Sublist.cons₂ a ih

theorem all_specRm {p : Char → Bool} {l : List Char} (h : l.all p = true) :
    (specRmSpaceBeforePunct l).all p = true := by
  rw [List.all_eq_true] at h ⊢
  intro x hx
  exact h x ((specRm_sublist l).subset hx)

theorem noAdjWs_specRm {l : List Char} (h : noAdjWs l = true) :
    noAdjWs (specRmSpaceBeforePunct l) = true := by
  induction l with
  | nil => rfl
  | cons a t ih =>
    have htail := pairsOK_tail h
    cases t with
    | nil => rfl
    | cons b t2 =>
      rw [specRm_cons_cons]
      by_cases hcond : (isWs a && isPunc b) = true
      · rw [if_pos hcond]
        exact ih htail
      · rw [if_neg hcond]
        by_cases ha : isWs a = true
        · have hb : isWs b = false := by
            have := (pairsOK_cons_cons.mp h).1
            rw [ha, Bool.true_and] at this
            exact this
          rw [specRm_cons_of_not_ws t2 hb]
          unfold noAdjWs at ih ⊢
          rw [pairsOK_cons_cons]
          rw [specRm_cons_of_not_ws t2 hb] at ih
          refine ⟨?_, ih htail⟩
          rw [hb, Bool.and_false]
        · have hfa := Bool.eq_false_iff.mpr ha
          unfold noAdjWs at ih ⊢
          cases hx : specRmSpaceBeforePunct (b :: t2) with
          | nil => rfl
          | cons e x2 =>
            rw [pairsOK_cons_cons]
            rw [hx] at ih
            refine ⟨?_, ih htail⟩
            rw [hfa, Bool.false_and]

theorem noWsPunc_specRm {l : List Char} (h : noAdjWs l = true) :
    noWsPunc (specRmSpaceBeforePunct l) = true := by
  induction l with
  | nil => rfl
  | cons a t ih =>
    have htail := pairsOK_tail h
    cases t with
    | nil => rfl
    | cons b t2 =>
      rw [specRm_cons_cons]
      by_cases hcond : (isWs a && isPunc b) = true
      · rw [if_pos hcond]
        exact ih htail
      · rw [if_neg hcond]
        by_cases ha : isWs a = true
        · have hb : isWs b = false := by
            have := (pairsOK_cons_cons.mp h).1
            rw [ha, Bool.true_and] at this
            exact this
          have hp : isPunc b = false := by
            rcases Bool.eq_false_or_eq_true (isPunc b) with hpb | hpb
            · rw [ha, hpb] at hcond
              simp at hcond
            · exact hpb
          rw [specRm_cons_of_not_ws t2 hb]
          unfold noWsPunc at ih ⊢
          rw [pairsOK_cons_cons]
          rw [specRm_cons_of_not_ws t2 hb] at ih
          refine ⟨?_, ih htail⟩
          rw [hp, Bool.and_false]
        · have hfa := Bool.eq_false_iff.mpr ha
          unfold noWsPunc at ih ⊢
          cases hx : specRmSpaceBeforePunct (b :: t2) with
          | nil => rfl
          | cons e x2 =>
            rw [pairsOK_cons_cons]
            rw [hx] at ih
            refine ⟨?_, ih htail⟩
            rw [hfa, Bool.false_and]

theorem headNonWs_specRm {l : List Char} (h : headNonWs l = true) :
    headNonWs (specRmSpaceBeforePunct l) = true := by
  cases l with
  | nil => rfl
  | cons c t =>
    have hc : isWs c = false := Bool.not_eq_true' .. ▸ h
    rw [specRm_cons_of_not_ws t hc]
    exact h

theorem lastNonWs_cons {a : Char} {t : List Char} (ht : t ≠ []) :
    lastNonWs (a :: t) = lastNonWs t := by
  unfold lastNonWs
  rw [List.reverse_cons]
  cases hr : t.reverse with
  | nil =>
    exact absurd (by rw [← List.reverse_reverse t, hr, List.reverse_nil]) ht
  | cons e r2 =>
    rw [List.cons_append]
    rfl

theorem lastNonWs_specRm {l : List Char} (h : lastNonWs l = true) :
    lastNonWs (specRmSpaceBeforePunct l) = true := by
  induction l with
  | nil => rfl
  | cons a t ih =>
    cases t with
    | nil => exact h
    | cons b t2 =>
      have htail : lastNonWs (b :: t2) = true := by
        rw [lastNonWs_cons (by simp)] at h
        exact h
      rw [specRm_cons_cons]
      by_cases hcond : (isWs a && isPunc b) = true
      · rw [if_pos hcond]
        exact ih htail
      · rw [if_neg hcond]
        rw [lastNonWs_cons (specRm_ne_nil (by simp))]
        exact ih htail

theorem specRm_eq_self {l : List Char} (h : noWsPunc l = true) :
    specRmSpaceBeforePunct l = l := by
  induction l with
  | nil => rfl
  | cons a t ih =>
    have htail := pairsOK_tail h
    cases t with
    | nil => rfl
    | cons b t2 =>
      have hbad : (isWs a && isPunc b) = false := (pairsOK_cons_cons.mp h).1
      rw [specRm_cons_cons, hbad, if_neg (by simp), ih htail]

/-! ## Identity of the first two passes on already-normalized text -/

theorem collapseWsRe_eq_self {l : List Char} (h1 : wsOnlySpace l = true)
    (h2 : noAdjWs l = true) : collapseWsRe l = l := by
  induction l using collapseWsRe.induct with
  | case1 => rfl
  | case2 c hc =>
    have hsp : c == ' ' := by
      unfold wsOnlySpace at h1
      rw [List.all_cons] at h1
      simp only [Bool.and_eq_true, Bool.or_eq_true, Bool.not_eq_true'] at h1
      rcases h1.1 with hx | hx
      · rw [hx] at hc
        cases hc
      · exact hx
    unfold collapseWsRe
    rw [if_pos hc]
    have : c = ' ' := by
      have := beq_iff_eq.mp hsp
      exact this
    rw [this]
  | case3 c hc =>
    unfold collapseWsRe
    rw [if_neg hc]
  | case4 c d t hc hd ih =>
    exfalso
    have := (pairsOK_cons_cons.mp h2).1
    rw [hc, hd] at this
    cases this
  | case5 c d t hc hd ih =>
    have htail1 : wsOnlySpace (d :: t) = true := by
      unfold wsOnlySpace at h1 ⊢
      rw [List.all_cons, Bool.and_eq_true] at h1
      exact h1.2
    have hsp : c = ' ' := by
      unfold wsOnlySpace at h1
      rw [List.all_cons] at h1
      simp only [Bool.and_eq_true, Bool.or_eq_true, Bool.not_eq_true'] at h1
      rcases h1.1 with hx | hx
      · rw [hx] at hc
        cases hc
      · exact beq_iff_eq.mp hx
    unfold collapseWsRe
    rw [if_pos hc, if_neg hd, ih htail1 (pairsOK_tail h2), hsp]
  | case6 c d t hc ih =>
    have htail1 : wsOnlySpace (d :: t) = true := by
      unfold wsOnlySpace at h1 ⊢
      rw [List.all_cons, Bool.and_eq_true] at h1
      exact h1.2
    unfold collapseWsRe
    rw [if_neg hc, ih htail1 (pairsOK_tail h2)]

/-! ## Claim theorems: the fallback repair transform (C2) -/

/-- C2 counterexample: on the input consisting of space, `a`, space, `B`
the engine-absent repair yields `A b` — the input is stripped, the first
segment is capitalized, and the uppercase `B` is lowercased — while the
transform described by the claim (collapse, remove space before
punctuation, capitalize only after terminator boundaries, everything else
unchanged) leaves the input untouched. -/
theorem fallback_transform_counterexample :
    run_language_tool_check none false " a B".data = "A b".data ∧
    specClaimTransform " a B".data = " a B".data ∧
    run_language_tool_check none false " a B".data ≠ specClaimTransform " a B".data := by
  refine ⟨by decide, by decide, by decide⟩

/-- Helper: the fallback transform equals the amended description — the
only difference between the two pipelines is the punctuation-spacing pass,
and on whitespace-collapsed text the regex deletion of a whitespace run
before punctuation coincides with the removal of a single space. -/
theorem fallbackRepair_eq_amended (text : List Char) :
    fallbackRepair text = amendedFallbackTransform text := by
  unfold fallbackRepair amendedFallbackTransform
  rw [rmWsPunct_eq_specRm]
  exact pairsOK_stripWs (fun a b => by rw [Bool.and_comm]) (collapseWsRe_noAdjWs text)

/-- C2 (amended): when no grammar engine is available, or the engine raises
on the input, `repair` returns exactly: collapse whitespace runs to one
space, strip leading and trailing whitespace, remove a space immediately
before `? . ! ,`, then split at every sentence-terminator-plus-whitespace
boundary and recapitalize every segment including the first (first
character of the segment uppercased, all its remaining characters
lowercased). -/
theorem fallback_transform_amended (engine : Option (List Char → Option (List Char)))
    (b : Bool) (text : List Char)
    (h : engine = none ∨ ∃ f, engine = some f ∧ f text = none) :
    run_language_tool_check engine b text = amendedFallbackTransform text := by
  rcases h with rfl | ⟨f, rfl, herr⟩
  · exact fallbackRepair_eq_amended text
  · show (match f text with
      | some out => out
      | none => fallbackRepair text) = amendedFallbackTransform text
    rw [herr]
    exact fallbackRepair_eq_amended text

/-- Witness for the amended C2 with no engine configured, at a concrete
input. -/
theorem fallback_transform_amended_witness :
    run_language_tool_check none false " a B".data
      = amendedFallbackTransform " a B".data :=
  fallback_transform_amended none false " a B".data (Or.inl rfl)

/-! ## Structure of the capitalization split -/

theorem isTerm_eq_false_of_isWs {c : Char} (h : isWs c = true) : isTerm c = false := by
  rcases Bool.eq_false_or_eq_true (isTerm c) with ht | ht
  · rw [isWs_eq_false_of_isTerm ht] at h
    cases h
  · exact ht

theorem splitTerm_cons_eq (c : Char) (cs : List Char) :
    splitTerm (c :: cs)
      = match splitTerm cs with
        | (d :: ds) :: rest =>
          if isTerm c && isWs d then
            [] :: (c :: d :: ds.takeWhile isWs) :: ds.dropWhile isWs :: rest
          else (c :: d :: ds) :: rest
        | other => consHead c other := by
  rfl

theorem splitTerm_cons_sep {c d : Char} {ds : List Char} {rest : List (List Char)}
    {cs : List Char} (hsp : splitTerm cs = (d :: ds) :: rest)
    (hc : isTerm c = true) (hd : isWs d = true) :
    splitTerm (c :: cs)
      = [] :: (c :: d :: ds.takeWhile isWs) :: ds.dropWhile isWs :: rest := by
  rw [splitTerm_cons_eq, hsp]
  show (if isTerm c && isWs d then
      [] :: (c :: d :: ds.takeWhile isWs) :: ds.dropWhile isWs :: rest
    else (c :: d :: ds) :: rest) = _
  rw [hc, hd]
  rfl

theorem splitTerm_cons_nosep {c d : Char} {ds : List Char} {rest : List (List Char)}
    {cs : List Char} (hsp : splitTerm cs = (d :: ds) :: rest)
    (hcond : (isTerm c && isWs d) = false) :
    splitTerm (c :: cs) = (c :: d :: ds) :: rest := by
  rw [splitTerm_cons_eq, hsp]
  show (if isTerm c && isWs d then
      [] :: (c :: d :: ds.takeWhile isWs) :: ds.dropWhile isWs :: rest
    else (c :: d :: ds) :: rest) = _
  rw [hcond]
  rfl

theorem splitTerm_cons_of_head_nil {c : Char} {cs : List Char} {rest : List (List Char)}
    (hsp : splitTerm cs = [] :: rest) :
    splitTerm (c :: cs) = [c] :: rest := by
  rw [splitTerm_cons_eq, hsp]
  rfl

theorem splitTerm_ne_nil (l : List Char) : splitTerm l ≠ [] := by
  cases l with
  | nil => simp [splitTerm]
  | cons c cs =>
    cases hsp : splitTerm cs with
    | nil =>
      rw [splitTerm_cons_eq, hsp]
      simp [consHead]
    | cons p rest =>
      cases p with
      | nil =>
        rw [splitTerm_cons_of_head_nil hsp]
        simp
      | cons d ds =>
        by_cases hcond : (isTerm c && isWs d) = true
        · rw [splitTerm_cons_sep hsp (Bool.and_eq_true .. ▸ hcond).1
            (Bool.and_eq_true .. ▸ hcond).2]
          simp
        · rw [splitTerm_cons_nosep hsp (Bool.eq_false_iff.mpr hcond)]
          simp

theorem splitTerm_first_head {l q0 : List Char} {rest : List (List Char)}
    (hsp : splitTerm l = q0 :: rest) (hq : q0 ≠ []) : q0.head? = l.head? := by
  cases l with
  | nil =>
    rw [splitTerm] at hsp
    cases hsp
    exact absurd rfl hq
  | cons c cs =>
    cases hsp2 : splitTerm cs with
    | nil => exact absurd hsp2 (splitTerm_ne_nil cs)
    | cons p rest2 =>
      cases p with
      | nil =>
        rw [splitTerm_cons_of_head_nil hsp2] at hsp
        cases hsp
        rfl
      | cons d ds =>
        by_cases hcond : (isTerm c && isWs d) = true
        · rw [splitTerm_cons_sep hsp2 (Bool.and_eq_true .. ▸ hcond).1
            (Bool.and_eq_true .. ▸ hcond).2] at hsp
          cases hsp
          exact absurd rfl hq
        · rw [splitTerm_cons_nosep hsp2 (Bool.eq_false_iff.mpr hcond)] at hsp
          cases hsp
          rfl

theorem flatten_splitTerm (l : List Char) : (splitTerm l).flatten = l := by
  induction l with
  | nil => rfl
  | cons c cs ih =>
    cases hsp : splitTerm cs with
    | nil => exact absurd hsp (splitTerm_ne_nil cs)
    | cons p rest =>
      rw [hsp, List.flatten_cons] at ih
      cases p with
      | nil =>
        rw [splitTerm_cons_of_head_nil hsp, List.flatten_cons]
        rw [List.nil_append] at ih
        rw [List.cons_append, List.nil_append, ih]
      | cons d ds =>
        by_cases hcond : (isTerm c && isWs d) = true
        · rw [splitTerm_cons_sep hsp (Bool.and_eq_true .. ▸ hcond).1
            (Bool.and_eq_true .. ▸ hcond).2]
          rw [List.flatten_cons, List.flatten_cons, List.flatten_cons, List.nil_append]
          rw [List.cons_append, List.cons_append]
          rw [← List.append_assoc, List.takeWhile_append_dropWhile]
          rw [List.cons_append] at ih
          rw [ih]
        · rw [splitTerm_cons_nosep hsp (Bool.eq_false_iff.mpr hcond)]
          rw [List.flatten_cons, List.cons_append, ih]

theorem splitTerm_ws_prepend {l r q0 : List Char} {rest0 : List (List Char)}
    (hall : l.all isWs = true) (hsp : splitTerm r = q0 :: rest0) :
    splitTerm (l ++ r) = (l ++ q0) :: rest0 := by
  induction l with
  | nil =>
    rw [List.nil_append, List.nil_append]
    exact hsp
  | cons c l2 ih =>
    rw [List.all_cons, Bool.and_eq_true] at hall
    have hterm : isTerm c = false := isTerm_eq_false_of_isWs hall.1
    have ih2 := ih hall.2
    rw [List.cons_append, List.cons_append]
    cases hl2q : l2 ++ q0 with
    | nil =>
      rw [hl2q] at ih2
      rw [splitTerm_cons_of_head_nil ih2]
    | cons d ds =>
      rw [hl2q] at ih2
      rw [splitTerm_cons_nosep ih2 (by rw [hterm, Bool.false_and])]

theorem splitTerm_part_prepend {p u q0 : List Char} {rest0 : List (List Char)}
    (htrig : noTrig p = true) (hsp : splitTerm u = q0 :: rest0)
    (hu : u = [] ∨ ∃ e t, u = e :: t ∧ isWs e = false) :
    splitTerm (p ++ u) = (p ++ q0) :: rest0 := by
  induction p with
  | nil =>
    rw [List.nil_append, List.nil_append]
    exact hsp
  | cons c p2 ih =>
    have ih2 := ih (pairsOK_tail htrig)
    rw [List.cons_append, List.cons_append]
    cases p2 with
    | cons e p3 =>
      rw [List.cons_append] at ih2 ⊢
      have hbad : (isTerm c && isWs e) = false := (pairsOK_cons_cons.mp htrig).1
      rw [splitTerm_cons_nosep ih2 hbad]
      rfl
    | nil =>
      rw [List.nil_append, List.nil_append] at ih2
      rw [List.nil_append, List.nil_append]
      cases hq0 : q0 with
      | nil =>
        subst hq0
        exact splitTerm_cons_of_head_nil ih2
      | cons d ds =>
        have hd : isWs d = false := by
          have hne : q0 ≠ [] := by
            rw [hq0]
            simp
          have hhead := splitTerm_first_head hsp hne
          rcases hu with rfl | ⟨e, t, rfl, he⟩
          · rw [splitTerm] at hsp
            cases hsp
            exact absurd rfl hne
          · rw [hq0] at hhead
            simp only [List.head?_cons] at hhead
            cases hhead
            exact he
        subst hq0
        rw [splitTerm_cons_nosep ih2 (by rw [hd, Bool.and_false])]

theorem splitTerm_sep_prepend {sep r q0 : List Char} {rest0 : List (List Char)}
    (hsep : isSepB sep = true) (hsp : splitTerm r = q0 :: rest0)
    (hq : headNonWs q0 = true) :
    splitTerm (sep ++ r) = [] :: sep :: q0 :: rest0 := by
  cases sep with
  | nil => cases hsep
  | cons t sep2 =>
    cases sep2 with
    | nil => cases hsep
    | cons w ws2 =>
      have hsepb : isTerm t = true ∧ isWs w = true ∧ ws2.all isWs = true := by
        have he : isSepB (t :: w :: ws2) = (isTerm t && isWs w && ws2.all isWs) := rfl
        rw [he] at hsep
        rw [Bool.and_eq_true, Bool.and_eq_true] at hsep
        exact ⟨hsep.1.1, hsep.1.2, hsep.2⟩
      have hq2 : q0 = [] ∨ ∃ e tl, q0 = e :: tl ∧ isWs e = false := by
        cases q0 with
        | nil => exact Or.inl rfl
        | cons e tl =>
          refine Or.inr ⟨e, tl, rfl, ?_⟩
          exact Bool.not_eq_true' .. ▸ hq
      have hw : (w :: ws2).all isWs = true := by
        rw [List.all_cons, hsepb.2.1, Bool.true_and]
        exact hsepb.2.2
      have hstep1 : splitTerm ((w :: ws2) ++ r) = ((w :: ws2) ++ q0) :: rest0 :=
        splitTerm_ws_prepend hw hsp
      have htk := takeWhile_append_of_headNonWs hsepb.2.2 hq2
      rw [List.cons_append, List.cons_append]
      rw [List.cons_append, List.cons_append] at hstep1
      rw [splitTerm_cons_sep hstep1 hsepb.1 hsepb.2.1]
      rw [htk.1, htk.2]

theorem splitTerm_valid (l : List Char) :
    ∀ q0 rest, splitTerm l = q0 :: rest → noTrig q0 = true ∧ validTail rest = true := by
  induction l with
  | nil =>
    intro q0 rest hsp
    rw [splitTerm] at hsp
    cases hsp
    exact ⟨rfl, rfl⟩
  | cons c cs ih =>
    intro q0 rest hsp
    cases hsp2 : splitTerm cs with
    | nil => exact absurd hsp2 (splitTerm_ne_nil cs)
    | cons p rest2 =>
      have ⟨ihp, ihv⟩ := ih p rest2 hsp2
      cases p with
      | nil =>
        rw [splitTerm_cons_of_head_nil hsp2] at hsp
        cases hsp
        exact ⟨rfl, ihv⟩
      | cons d ds =>
        by_cases hcond : (isTerm c && isWs d) = true
        · have hc := (Bool.and_eq_true .. ▸ hcond).1
          have hd := (Bool.and_eq_true .. ▸ hcond).2
          rw [splitTerm_cons_sep hsp2 hc hd] at hsp
          cases hsp
          refine ⟨rfl, ?_⟩
          have hsb : isSepB (c :: d :: ds.takeWhile isWs) = true := by
            simp only [isSepB]
            rw [hc, hd, all_takeWhile]
            rfl
          have hnt : noTrig (ds.dropWhile isWs) = true :=
            pairsOK_of_suffix (List.dropWhile_suffix isWs) (pairsOK_tail ihp)
          simp only [validTail]
          rw [hsb, hnt, headNonWs_dropWhile, ihv]
          rfl
        · rw [splitTerm_cons_nosep hsp2 (Bool.eq_false_iff.mpr hcond)] at hsp
          cases hsp
          refine ⟨?_, ihv⟩
          unfold noTrig
          rw [pairsOK_cons_cons]
          exact ⟨Bool.eq_false_iff.mpr hcond, ihp⟩

theorem flatten_head_cond {tail : List (List Char)} (hvt : validTail tail = true) :
    tail.flatten = [] ∨ ∃ e t, tail.flatten = e :: t ∧ isWs e = false := by
  cases tail with
  | nil => exact Or.inl rfl
  | cons sep rest =>
    cases rest with
    | nil => cases hvt
    | cons part rest2 =>
      simp only [validTail] at hvt
      rw [Bool.and_eq_true, Bool.and_eq_true, Bool.and_eq_true] at hvt
      cases sep with
      | nil => cases hvt.1.1.1
      | cons t sep2 =>
        cases sep2 with
        | nil => cases hvt.1.1.1
        | cons w ws2 =>
          have hsep := hvt.1.1.1
          simp only [isSepB] at hsep
          rw [Bool.and_eq_true, Bool.and_eq_true] at hsep
          refine Or.inr ⟨t, w :: (ws2 ++ (part :: rest2).flatten), ?_, ?_⟩
          · rw [List.flatten_cons, List.cons_append, List.cons_append]
          · exact isWs_eq_false_of_isTerm hsep.1.1

theorem splitTerm_flatten_tail {tail : List (List Char)} (hvt : validTail tail = true) :
    splitTerm tail.flatten = [] :: tail := by
  induction tail using validTail.induct with
  | case1 => rfl
  | case2 x => cases hvt
  | case3 sep part rest ih =>
    simp only [validTail] at hvt
    rw [Bool.and_eq_true, Bool.and_eq_true, Bool.and_eq_true] at hvt
    have ihr := ih hvt.2
    have hstep1 : splitTerm (part ++ rest.flatten) = (part ++ []) :: rest :=
      splitTerm_part_prepend hvt.1.1.2 ihr (flatten_head_cond hvt.2)
    rw [List.append_nil] at hstep1
    have hstep2 : splitTerm (sep ++ (part ++ rest.flatten)) = [] :: sep :: part :: rest :=
      splitTerm_sep_prepend hvt.1.1.1 hstep1 hvt.1.2
    rw [List.flatten_cons, List.flatten_cons]
    exact hstep2

theorem splitTerm_flatten_valid {p0 : List Char} {tail : List (List Char)}
    (hp : noTrig p0 = true) (hvt : validTail tail = true) :
    splitTerm (p0 :: tail).flatten = p0 :: tail := by
  rw [List.flatten_cons]
  have h1 := splitTerm_flatten_tail hvt
  have h2 : splitTerm (p0 ++ tail.flatten) = (p0 ++ []) :: tail :=
    splitTerm_part_prepend hp h1 (flatten_head_cond hvt)
  rw [List.append_nil] at h2
  exact h2

/-! ## Capitalization preserves decomposition validity -/

theorem capitalizePy_cons (c : Char) (cs : List Char) :
    capitalizePy (c :: cs) = c.toUpper :: cs.map Char.toLower := rfl

theorem headNonWs_cons (c : Char) (t : List Char) : headNonWs (c :: t) = !isWs c := rfl

theorem map_toLower_of_all_ws {l : List Char} (h : l.all isWs = true) :
    l.map Char.toLower = l := by
  induction l with
  | nil => rfl
  | cons c t ih =>
    rw [List.all_cons, Bool.and_eq_true] at h
    rw [List.map_cons, toLower_of_isWs h.1, ih h.2]

theorem capitalizePy_of_sep {s : List Char} (h : isSepB s = true) :
    capitalizePy s = s := by
  cases s with
  | nil => cases h
  | cons t s2 =>
    cases s2 with
    | nil => cases h
    | cons w ws2 =>
      simp only [isSepB] at h
      rw [Bool.and_eq_true, Bool.and_eq_true] at h
      rw [capitalizePy_cons, toUpper_of_isTerm h.1.1, List.map_cons, toLower_of_isWs h.1.2,
        map_toLower_of_all_ws h.2]

theorem noTrig_map_toLower {l : List Char} (h : noTrig l = true) :
    noTrig (l.map Char.toLower) = true := by
  induction l with
  | nil => rfl
  | cons a t ih =>
    cases t with
    | nil => rfl
    | cons b t2 =>
      rw [List.map_cons, List.map_cons]
      unfold noTrig at ih ⊢
      rw [pairsOK_cons_cons]
      have hbad := (pairsOK_cons_cons.mp h).1
      refine ⟨?_, ?_⟩
      · rw [isTerm_toLower, isWs_toLower]
        exact hbad
      · have := ih (pairsOK_tail h)
        rw [List.map_cons] at this
        exact this

theorem noTrig_capitalizePy {p : List Char} (h : noTrig p = true) :
    noTrig (capitalizePy p) = true := by
  cases p with
  | nil => rfl
  | cons a t =>
    rw [capitalizePy_cons]
    cases t with
    | nil => rfl
    | cons b t2 =>
      rw [List.map_cons]
      unfold noTrig
      rw [pairsOK_cons_cons]
      refine ⟨?_, ?_⟩
      · rw [isTerm_toUpper, isWs_toLower]
        exact (pairsOK_cons_cons.mp h).1
      · have := noTrig_map_toLower (pairsOK_tail h)
        rw [List.map_cons] at this
        exact this

theorem headNonWs_capitalizePy {p : List Char} (h : headNonWs p = true) :
    headNonWs (capitalizePy p) = true := by
  cases p with
  | nil => rfl
  | cons c t =>
    rw [capitalizePy_cons, headNonWs_cons, isWs_toUpper]
    rw [headNonWs_cons] at h
    exact h

theorem validTail_map_capitalizePy {tail : List (List Char)}
    (hvt : validTail tail = true) :
    validTail (tail.map capitalizePy) = true := by
  induction tail using validTail.induct with
  | case1 => rfl
  | case2 x => cases hvt
  | case3 sep part rest ih =>
    simp only [validTail] at hvt
    rw [Bool.and_eq_true, Bool.and_eq_true, Bool.and_eq_true] at hvt
    rw [List.map_cons, List.map_cons]
    simp only [validTail]
    rw [capitalizePy_of_sep hvt.1.1.1, hvt.1.1.1, noTrig_capitalizePy hvt.1.1.2,
      headNonWs_capitalizePy hvt.1.2, ih hvt.2]
    rfl

/-! ## The capitalization pass is stable -/

theorem splitTerm_capped (z : List Char) :
    splitTerm ((splitTerm z).map capitalizePy).flatten = (splitTerm z).map capitalizePy := by
  cases hsp : splitTerm z with
  | nil => exact absurd hsp (splitTerm_ne_nil z)
  | cons q0 rest =>
    have hval := splitTerm_valid z q0 rest hsp
    rw [List.map_cons]
    exact splitTerm_flatten_valid (noTrig_capitalizePy hval.1)
      (validTail_map_capitalizePy hval.2)

theorem capitalizePy_idem (p : List Char) :
    capitalizePy (capitalizePy p) = capitalizePy p := by
  cases p with
  | nil => rfl
  | cons c t =>
    rw [capitalizePy_cons, capitalizePy_cons, toUpper_toUpper, List.map_map]
    congr 1
    apply List.map_congr_left
    intro a _
    exact toLower_toLower a

theorem map_capitalizePy_idem (ll : List (List Char)) :
    (ll.map capitalizePy).map capitalizePy = ll.map capitalizePy := by
  rw [List.map_map]
  apply List.map_congr_left
  intro p _
  exact capitalizePy_idem p

theorem joinCap_idem (z : List Char) :
    ((splitTerm ((splitTerm z).map capitalizePy).flatten).map capitalizePy).flatten
      = ((splitTerm z).map capitalizePy).flatten := by
  rw [splitTerm_capped, map_capitalizePy_idem]

/-! ## Case-equivalence transfer: the capitalization pass only changes
letter case, so all whitespace/punctuation invariants survive it -/

theorem capEqC_isWs {a b : Char} (h : capEqC a b) : isWs b = isWs a := by
  rcases h with rfl | rfl | rfl
  · rfl
  · exact isWs_toUpper a
  · exact isWs_toLower a

theorem capEqC_isPunc {a b : Char} (h : capEqC a b) : isPunc b = isPunc a := by
  rcases h with rfl | rfl | rfl
  · rfl
  · exact isPunc_toUpper a
  · exact isPunc_toLower a

theorem capEqC_eq_of_isWs {a b : Char} (h : capEqC a b) (hw : isWs a = true) : b = a := by
  rcases h with rfl | rfl | rfl
  · rfl
  · exact toUpper_of_isWs hw
  · exact toLower_of_isWs hw

theorem forall₂_map_toLower (l : List Char) :
    List.Forall₂ capEqC l (l.map Char.toLower) := by
  induction l with
  | nil => exact List.Forall₂.nil
  | cons c t ih =>
    rw [List.map_cons]
    exact List.Forall₂.cons (Or.inr (Or.inr rfl)) ih

theorem forall₂_capitalizePy (p : List Char) :
    List.Forall₂ capEqC p (capitalizePy p) := by
  cases p with
  | nil => exact List.Forall₂.nil
  | cons c cs =>
    rw [capitalizePy_cons]
    exact List.Forall₂.cons (Or.inr (Or.inl rfl)) (forall₂_map_toLower cs)

theorem forall₂_map_capitalizePy (ll : List (List Char)) :
    List.Forall₂ (List.Forall₂ capEqC) ll (ll.map capitalizePy) := by
  induction ll with
  | nil => exact List.Forall₂.nil
  | cons p rest ih =>
    rw [List.map_cons]
    exact List.Forall₂.cons (forall₂_capitalizePy p) ih

theorem forall₂_capped (z : List Char) :
    List.Forall₂ capEqC z (((splitTerm z).map capitalizePy).flatten) := by
  conv_lhs => rw [← flatten_splitTerm z]
  exact List.rel_flatten (forall₂_map_capitalizePy (splitTerm z))

theorem pairsOK_forall₂ {bad : Char → Char → Bool}
    (hb : ∀ a b a2 b2, capEqC a b → capEqC a2 b2 → bad b b2 = bad a a2)
    {s t : List Char} (h : List.Forall₂ capEqC s t) (hs : pairsOK bad s = true) :
    pairsOK bad t = true := by
  induction h with
  | nil => rfl
  | cons hab h2 ih =>
    cases h2 with
    | nil => rfl
    | cons hab2 h3 =>
      rw [pairsOK_cons_cons] at hs ⊢
      refine ⟨?_, ih hs.2⟩
      rw [hb _ _ _ _ hab hab2]
      exact hs.1

theorem wsOnlySpace_forall₂ {s t : List Char} (h : List.Forall₂ capEqC s t)
    (hs : wsOnlySpace s = true) : wsOnlySpace t = true := by
  induction h with
  | nil => rfl
  | @cons a b s2 t2 hab h2 ih =>
    unfold wsOnlySpace at hs ⊢
    rw [List.all_cons, Bool.and_eq_true] at hs ⊢
    refine ⟨?_, ih hs.2⟩
    rcases Bool.eq_false_or_eq_true (isWs a) with hw | hw
    · have hba : b = a := capEqC_eq_of_isWs hab hw
      rw [hba]
      exact hs.1
    · have hwb : isWs b = false := by
        rw [capEqC_isWs hab]
        exact hw
      rw [hwb]
      rfl

theorem headNonWs_forall₂ {s t : List Char} (h : List.Forall₂ capEqC s t)
    (hs : headNonWs s = true) : headNonWs t = true := by
  cases h with
  | nil => rfl
  | cons hab h2 =>
    rw [headNonWs_cons] at hs ⊢
    rw [capEqC_isWs hab]
    exact hs

theorem forall₂_getLast? {s t : List Char} (h : List.Forall₂ capEqC s t) :
    (s = [] ∧ t = []) ∨
      ∃ a b, s.getLast? = some a ∧ t.getLast? = some b ∧ capEqC a b := by
  induction h with
  | nil => exact Or.inl ⟨rfl, rfl⟩
  | @cons a b s2 t2 hab h2 ih =>
    rcases ih with ⟨rfl, rfl⟩ | ⟨x, y, hx, hy, hxy⟩
    · exact Or.inr ⟨a, b, rfl, rfl, hab⟩
    · refine Or.inr ⟨x, y, ?_, ?_, hxy⟩
      · cases s2 with
        | nil => cases hx
        | cons c s3 =>
          rw [List.getLast?_cons_cons]
          exact hx
      · cases t2 with
        | nil => cases hy
        | cons c t3 =>
          rw [List.getLast?_cons_cons]
          exact hy

theorem lastNonWs_iff (l : List Char) :
    lastNonWs l = true ↔ ∀ a, l.getLast? = some a → isWs a = false := by
  unfold lastNonWs
  cases hr : l.reverse with
  | nil =>
    have hl : l = [] := by
      rw [← List.reverse_reverse l, hr]
      rfl
    subst hl
    simp [headNonWs]
  | cons e r2 =>
    have hg : l.getLast? = some e := by
      rw [← List.head?_reverse, hr]
      rfl
    rw [headNonWs_cons, hg]
    constructor
    · intro h a ha
      cases ha
      exact Bool.not_eq_true' .. ▸ h
    · intro h
      rw [Bool.not_eq_true', h e rfl]

theorem lastNonWs_forall₂ {s t : List Char} (h : List.Forall₂ capEqC s t)
    (hs : lastNonWs s = true) : lastNonWs t = true := by
  rw [lastNonWs_iff] at hs ⊢
  intro b hb
  rcases forall₂_getLast? h with ⟨rfl, rfl⟩ | ⟨x, y, hx, hy, hxy⟩
  · cases hb
  · rw [hy] at hb
    cases hb
    rw [capEqC_isWs hxy]
    exact hs x hx

/-! ## Idempotence of the fallback transform -/

theorem fallbackRepair_idem (x : List Char) :
    fallbackRepair (fallbackRepair x) = fallbackRepair x := by
  have hsym : ∀ a b : Char, (isWs a && isWs b) = (isWs b && isWs a) := fun a b =>
    Bool.and_comm ..
  -- the normalized text entering the capitalization step
  have hs1adj : noAdjWs (stripWs (collapseWsRe x)) = true :=
    pairsOK_stripWs hsym (collapseWsRe_noAdjWs x)
  have hzeq : rmWsPunct (stripWs (collapseWsRe x))
      = specRmSpaceBeforePunct (stripWs (collapseWsRe x)) := rmWsPunct_eq_specRm hs1adj
  -- invariants of that text
  have hzspace : wsOnlySpace (rmWsPunct (stripWs (collapseWsRe x))) = true := by
    rw [hzeq]
    exact all_specRm (all_stripWs (collapseWsRe_wsOnlySpace x))
  have hzadj : noAdjWs (rmWsPunct (stripWs (collapseWsRe x))) = true := by
    rw [hzeq]
    exact noAdjWs_specRm hs1adj
  have hzhead : headNonWs (rmWsPunct (stripWs (collapseWsRe x))) = true := by
    rw [hzeq]
    exact headNonWs_specRm (headNonWs_stripWs _)
  have hzlast : lastNonWs (rmWsPunct (stripWs (collapseWsRe x))) = true := by
    rw [hzeq]
    exact lastNonWs_specRm (lastNonWs_stripWs _)
  have hzpunc : noWsPunc (rmWsPunct (stripWs (collapseWsRe x))) = true := by
    rw [hzeq]
    exact noWsPunc_specRm hs1adj
  -- the output is case-equivalent to that text, so it inherits the invariants
  have hf2 : List.Forall₂ capEqC (rmWsPunct (stripWs (collapseWsRe x))) (fallbackRepair x) :=
    forall₂_capped _
  have hyspace : wsOnlySpace (fallbackRepair x) = true := wsOnlySpace_forall₂ hf2 hzspace
  have hyadj : noAdjWs (fallbackRepair x) = true := by
    unfold noAdjWs at hzadj ⊢
    refine pairsOK_forall₂ ?_ hf2 hzadj
    intro a b a2 b2 h1 h2
    rw [capEqC_isWs h1, capEqC_isWs h2]
  have hypunc : noWsPunc (fallbackRepair x) = true := by
    unfold noWsPunc at hzpunc ⊢
    refine pairsOK_forall₂ ?_ hf2 hzpunc
    intro a b a2 b2 h1 h2
    rw [capEqC_isWs h1, capEqC_isPunc h2]
  have hyhead : headNonWs (fallbackRepair x) = true := headNonWs_forall₂ hf2 hzhead
  have hylast : lastNonWs (fallbackRepair x) = true := lastNonWs_forall₂ hf2 hzlast
  -- now the second run leaves each pass fixed
  show ((splitTerm (rmWsPunct (stripWs (collapseWsRe (fallbackRepair x))))).map
    capitalizePy).flatten = fallbackRepair x
  rw [collapseWsRe_eq_self hyspace hyadj, stripWs_eq_self hyhead hylast,
    rmWsPunct_eq_specRm hyadj, specRm_eq_self hypunc]
  exact joinCap_idem _

/-! ## Claim theorems: idempotence of the fallback (C9) -/

/-- C9: for every input already free of double spaces and of spaces
immediately before punctuation, applying the local fallback repair
transform twice yields the same result as applying it once.  (The proof
does not even need the hypotheses: the transform is idempotent on all
inputs, because its output is whitespace-normalized and recapitalization
is stable.) -/
theorem fallback_repair_idempotent (text : List Char)
    (_h1 : noDoubleSpace text = true) (_h2 : noSpaceBeforePunct text = true) :
    fallbackRepair (fallbackRepair text) = fallbackRepair text :=
  fallbackRepair_idem text

/-- Witness for C9 at a concrete normalized sentence. -/
theorem fallback_repair_idempotent_witness :
    fallbackRepair (fallbackRepair "Hello there. how are YOU? fine!".data)
      = fallbackRepair "Hello there. how are YOU? fine!".data :=
  fallback_repair_idempotent "Hello there. how are YOU? fine!".data
    (by decide) (by decide)
